import Mathlib

/-!
Verification of the Wasm module assembler in
`src/compiler/gen_wasm/src/wasm_module/sections.rs`.

Byte buffers are `List Nat`; cursors are `Nat` indices into the buffer.
Rust functions that can return `Ok`, return `Err(ParseError)`, or panic
(out-of-bounds indexing, `.unwrap()` on `Err`, `internal_error!`) are
modelled with the `PRes` outcome type below.  Machine integers are `Nat`
and `Int`; the `u32 as i32` cast is modelled explicitly by `i32_of_u32`.
Float payloads (`f32`/`f64` constant expressions) are not modelled; no
statement below depends on them.

The helper crates `parse.rs`, `serialize.rs`, `opcodes.rs`,
`code_builder.rs` and `dead_code.rs` are not part of the source tree
given under `src/`; the definitions taken from them are marked
`Modelled from the spec:` and follow the specification document.
-/

/-- Outcome of a fallible Rust parse function: `ok value cursor` for
`Ok` with the final cursor position, `err offset message` for a
returned `ParseError { offset, message }`, and `panic` for a Rust panic
(slice index out of bounds, `.unwrap()` on `Err`, `internal_error!`). -/
inductive PRes (α : Type) where
  | ok : α → Nat → PRes α
  | err : Nat → String → PRes α
  | panic : PRes α
deriving DecidableEq, Repr

/-- Modelled from the spec: `parse.rs` (not under `src/`) provides the
LEB128 ("variable-length little-endian base-128") u32 decoder.  Reads up
to 5 bytes from the front of a list; returns the decoded value and the
number of bytes consumed, or `none` for a malformed varint (truncated
input or more than 5 continuation bytes). -/
def lebDecodeList : Nat → List Nat → Option (Nat × Nat)
  | 0, _ => none
  | _ + 1, [] => none
  | fuel + 1, b :: rest =>
    if b < 128 then some (b, 1)
    else
      match lebDecodeList fuel rest with
      | some (v, k) => some (b % 128 + v * 128, k + 1)
      | none => none

/-- Modelled from the spec: `u32::parse` from `parse.rs` (not under
`src/`): decode an LEB128 u32 at `cursor`, returning the value and the
advanced cursor, or a structured `ParseError` on a malformed varint. -/
def u32parse (bytes : List Nat) (cursor : Nat) : PRes Nat :=
  match lebDecodeList 5 (bytes.drop cursor) with
  | some (v, k) => PRes.ok v (cursor + k)
  | none => PRes.err cursor "Invalid LEB-128 integer"

/-- Fuel-driven worker for `lebEncode`; the fuel is an upper bound on
the number of base-128 digits and never runs out at the chosen start
value. -/
def lebEncodeAux : Nat → Nat → List Nat
  | 0, _ => []
  | fuel + 1, n => if n < 128 then [n] else (n % 128 + 128) :: lebEncodeAux fuel (n / 128)

/-- Modelled from the spec: minimal-width LEB128 encoding of a `Nat`
(`encode_u32` from `serialize.rs`, not under `src/`). -/
def lebEncode (n : Nat) : List Nat := lebEncodeAux (n + 1) n

/-- Modelled from the spec: the fixed maximum-width (5-byte) padded
LEB128 encoding used for reserve-then-patch section sizes
(`reserve_padded_u32` / `overwrite_padded_u32` from `serialize.rs`, not
under `src/`): continuation bits are set on the first four bytes so the
width never changes when the value is patched in. -/
def lebEncodePadded (n : Nat) : List Nat :=
  [n % 128 + 128, n / 128 % 128 + 128, n / 128 ^ 2 % 128 + 128,
   n / 128 ^ 3 % 128 + 128, n / 128 ^ 4 % 128]

/-- The `u32 as i32` cast (two's complement reinterpretation); also
models `usize as i32` (truncate to the low 32 bits, reinterpret). -/
def i32_of_u32 (n : Nat) : Int :=
  if n % 2 ^ 32 < 2 ^ 31 then (n % 2 ^ 32 : Int) else (n % 2 ^ 32 : Int) - 2 ^ 32

/-- Reduce an integer into the i32 range by two's-complement
wrap-around. -/
def i32_wrap (z : Int) : Int := (z + 2 ^ 31).emod (2 ^ 32) - 2 ^ 31

/-- Rust `i32 + i32` in release mode: wrapping addition.  (Debug
builds panic on overflow instead; the element-section statements below
carry explicit no-overflow bounds wherever the distinction matters, so
wrap and panic never diverge inside a proved conclusion.) -/
def i32_add (x y : Int) : Int := i32_wrap (x + y)

/-- Lower-case hex digit, as produced by Rust's `{:x}` formatting. -/
def hexDigit (n : Nat) : Char :=
  if n < 10 then Char.ofNat (48 + n) else Char.ofNat (87 + n)

/-- Minimal-width lower-case hex rendering of a `Nat` (Rust `{:x}`). -/
def natToHex (n : Nat) : String :=
  if n < 16 then String.mk [hexDigit n]
  else natToHex (n / 16) ++ String.mk [hexDigit (n % 16)]
termination_by n
decreasing_by exact Nat.div_lt_self (by omega) (by omega)

/-- `parse_section` (sections.rs:128-153).  Returns
`(count, range.start, range.end)` together with the advanced cursor:
end-of-input is a `ParseError`; a non-matching leading id byte is the
legal "section absent" signal and yields `(0, cursor, cursor)`;
otherwise the section size and entry count varints are decoded and the
cursor stops just past the count. -/
def parse_section (expected_id : Nat) (module_bytes : List Nat) (cursor : Nat) :
    PRes (Nat × Nat × Nat) :=
  if module_bytes.length ≤ cursor then PRes.err cursor "End of file"
  else if module_bytes.getD cursor 0 ≠ expected_id then PRes.ok (0, cursor, cursor) cursor
  else
    match u32parse module_bytes (cursor + 1) with
    | PRes.ok section_size c1 =>
      match u32parse module_bytes c1 with
      | PRes.ok count c2 => PRes.ok (count, c2, c1 + section_size) c2
      | PRes.err o m => PRes.err o m
      | PRes.panic => PRes.panic
    | PRes.err o m => PRes.err o m
    | PRes.panic => PRes.panic

/-- `Limits` (sections.rs:612-616). -/
inductive Limits where
  | min : Nat → Limits
  | minMax : Nat → Nat → Limits
deriving DecidableEq, Repr

/-- `Limits::parse` (sections.rs:652-665).  Note the source reads
`bytes[*cursor]` without a bounds check and calls
`u32::parse(..).unwrap()`, so truncated input panics instead of
returning a `ParseError`. -/
def Limits.parse (bytes : List Nat) (cursor : Nat) : PRes Limits :=
  match bytes[cursor]? with
  | none => PRes.panic
  | some variant_id =>
    match u32parse bytes (cursor + 1) with
    | PRes.ok mn c1 =>
      if variant_id = 1 then
        match u32parse bytes c1 with
        | PRes.ok mx c2 => PRes.ok (Limits.minMax mn mx) c2
        | _ => PRes.panic
      else PRes.ok (Limits.min mn) c1
    | _ => PRes.panic

/-- `ConstExpr` (sections.rs:724-730).  Float payloads are not
modelled (no claim depends on them). -/
inductive ConstExpr where
  | i32 : Int → ConstExpr
  | i64 : Int → ConstExpr
  | f32 : ConstExpr
  | f64 : ConstExpr
deriving DecidableEq, Repr

/-- `ConstExpr::unwrap_i32` (sections.rs:754-759): `none` models the
`internal_error!` abort on a non-I32 constant expression. -/
def ConstExpr.unwrap_i32 : ConstExpr → Option Int
  | ConstExpr.i32 x => some x
  | _ => none

/-- `ConstExpr::parse_u32` (sections.rs:733-752).  The opcode bytes
`0x41` (`i32.const`) and `0x0b` (`end`) come from `opcodes.rs` (not
under `src/`); they are the standard Wasm opcodes.  Both validation
failures reuse the error built at entry, so the reported offset is the
original cursor. -/
def ConstExpr.parse_u32 (bytes : List Nat) (cursor : Nat) : PRes Nat :=
  match bytes[cursor]? with
  | none => PRes.panic
  | some b =>
    if b ≠ 0x41 then PRes.err cursor "Invalid ConstExpr. Expected i32."
    else
      match u32parse bytes (cursor + 1) with
      | PRes.ok value c1 =>
        match bytes[c1]? with
        | none => PRes.panic
        | some e =>
          if e ≠ 0x0b then PRes.err cursor "Invalid ConstExpr. Expected i32."
          else PRes.ok value (c1 + 1)
      | PRes.err o m => PRes.err o m
      | PRes.panic => PRes.panic

/-- Modelled from the spec: signed LEB128 encoding (`encode_i32` from
`serialize.rs`, not under `src/`), with enough fuel for any i64. -/
def slebEncodeAux : Nat → Int → List Nat
  | 0, _ => []
  | fuel + 1, x =>
    let b := (x.emod 128).toNat
    let next := x.ediv 128
    if (next = 0 ∧ b < 64) ∨ (next = -1 ∧ 64 ≤ b) then [b]
    else (b + 128) :: slebEncodeAux fuel next

/-- Signed LEB128 encoding of an integer. -/
def slebEncode (x : Int) : List Nat := slebEncodeAux 10 x

/-- `impl Serialize for ConstExpr` (sections.rs:762-784): opcode byte,
payload, explicit `end` (0x0b) terminator.  Float payloads are zeroed
in the model (not statable; unused by every claim). -/
def ConstExpr.serialize : ConstExpr → List Nat
  | ConstExpr.i32 x => 0x41 :: slebEncode x ++ [0x0b]
  | ConstExpr.i64 x => 0x42 :: slebEncode x ++ [0x0b]
  | ConstExpr.f32 => [0x43, 0, 0, 0, 0, 0x0b]
  | ConstExpr.f64 => [0x44, 0, 0, 0, 0, 0, 0, 0, 0, 0x0b]

/-- `RefType` (sections.rs:505-510): `Func = 0x70`, `Extern = 0x6f`. -/
inductive RefType where
  | func
  | externref
deriving DecidableEq, Repr

/-- `TableType` (sections.rs:512-515). -/
structure TableType where
  ref_type : RefType
  limits : Limits
deriving DecidableEq, Repr

/-- `TableSection` (sections.rs:533-535). -/
structure TableSection where
  function_table : TableType
deriving DecidableEq, Repr

/-- `TableSection::parse` (sections.rs:555-592).  Absence or a zero
table count synthesizes an empty funcref table with
`Limits::MinMax(0, 0)`; two or more tables, or a non-funcref first
byte, are structured parse errors.  (The source checks
`module_bytes[range.start]` against 0x70 without advancing the cursor,
then runs `Limits::parse` from that same position.) -/
def TableSection.parse (module_bytes : List Nat) (cursor : Nat) : PRes TableSection :=
  match parse_section 4 module_bytes cursor with
  | PRes.ok (count, rs, re) c =>
    match count with
    | 0 => PRes.ok ⟨⟨RefType.func, Limits.minMax 0 0⟩⟩ re
    | 1 =>
      match module_bytes[rs]? with
      | none => PRes.panic
      | some b =>
        if b ≠ 0x70 then PRes.err c "Only funcref tables are supported"
        else
          match Limits.parse module_bytes c with
          | PRes.ok limits _ => PRes.ok ⟨⟨RefType.func, limits⟩⟩ re
          | PRes.err o m => PRes.err o m
          | PRes.panic => PRes.panic
    | _ + 2 => PRes.err c "Multiple tables are not supported"
  | PRes.err o m => PRes.err o m
  | PRes.panic => PRes.panic

/-- `DataMode` (sections.rs:1240-1246). -/
inductive DataMode where
  | active : ConstExpr → DataMode
  | passive
deriving DecidableEq, Repr

/-- `DataMode::ACTIVE` (sections.rs:1249): tag byte 0. -/
def DataMode.ACTIVE : Nat := 0

/-- `DataMode::PASSIVE` (sections.rs:1250): also tag byte 0. -/
def DataMode.PASSIVE : Nat := 0

/-- `impl Serialize for DataMode` (sections.rs:1259-1271). -/
def DataMode.serialize : DataMode → List Nat
  | DataMode.active offset => DataMode.ACTIVE :: offset.serialize
  | DataMode.passive => [DataMode.PASSIVE]

/-- `DataMode::parse` (sections.rs:1273-1292).  The tag is compared to
`ACTIVE` first; since `PASSIVE` is the same byte, the passive branch is
unreachable.  The error offset is `cursor - 1` relative to the advanced
cursor, i.e. the tag position. -/
def DataMode.parse (bytes : List Nat) (cursor : Nat) : PRes DataMode :=
  match bytes[cursor]? with
  | none => PRes.panic
  | some variant_id =>
    if variant_id = DataMode.ACTIVE then
      match ConstExpr.parse_u32 bytes (cursor + 1) with
      | PRes.ok offset c1 => PRes.ok (DataMode.active (ConstExpr.i32 (i32_of_u32 offset))) c1
      | PRes.err o m => PRes.err o m
      | PRes.panic => PRes.panic
    else if variant_id = DataMode.PASSIVE then PRes.ok DataMode.passive (cursor + 1)
    else PRes.err cursor ("Data section: invalid DataMode variant 0x" ++ natToHex variant_id)

/-- `ElementSegment` (sections.rs:959-963). -/
structure ElementSegment where
  offset : ConstExpr
  fn_indices : List Nat
deriving DecidableEq, Repr

/-- `ElementSection` (sections.rs:1016-1019). -/
structure ElementSection where
  segments : List ElementSegment
deriving DecidableEq, Repr

/-- `Iterator::position` over a list: index of the first element equal
to `a`. -/
def listPos {α : Type} [DecidableEq α] : List α → α → Option Nat
  | [], _ => none
  | x :: rest, a => if x = a then some 0 else (listPos rest a).map (· + 1)

/-- `ElementSection::get_fn_table_index` (sections.rs:1028-1040):
operates on the last segment; `none` models the panic on an empty
segment list (`.unwrap()`) or a non-I32 offset (`internal_error!`).
The returned index is `offset + position as i32` resp.
`offset + new_table_index as i32`, i.e. an `as i32` cast of the usize
position followed by release-mode (wrapping) i32 addition.  Returns
the table index and the updated section. -/
def ElementSection.get_fn_table_index (sec : ElementSection) (fn_index : Nat) :
    Option (Int × ElementSection) :=
  match sec.segments.getLast? with
  | none => none
  | some segment =>
    match segment.offset.unwrap_i32 with
    | none => none
    | some offset =>
      match listPos segment.fn_indices fn_index with
      | some pos => some (i32_add offset (i32_of_u32 pos), sec)
      | none =>
        some (i32_add offset (i32_of_u32 segment.fn_indices.length),
          ⟨sec.segments.dropLast ++ [⟨segment.offset, segment.fn_indices ++ [fn_index]⟩]⟩)

/-- Loop body of `ElementSection::max_table_index` (sections.rs:1043-1052):
fold `max` of `offset + fn_indices.len() as i32` — an `as i32` cast of
the usize length followed by release-mode (wrapping) i32 addition —
over the segments, starting from the accumulator; `none` models the
`internal_error!` on a non-I32 offset.  (The `if max_index > result`
comparison itself cannot overflow.) -/
def max_table_index_aux : List ElementSegment → Int → Option Int
  | [], r => some r
  | s :: rest, r =>
    match s.offset.unwrap_i32 with
    | none => none
    | some off => max_table_index_aux rest (max r (i32_add off (i32_of_u32 s.fn_indices.length)))

/-- `ElementSection::max_table_index` (sections.rs:1043-1052): the
accumulator starts at 0 and the result is cast `as u32`. -/
def ElementSection.max_table_index (sec : ElementSection) : Option Nat :=
  (max_table_index_aux sec.segments 0).map Int.toNat

/-- `ElementSection::indirect_callees` (sections.rs:1059-1065). -/
def ElementSection.indirect_callees (sec : ElementSection) : List Nat :=
  (sec.segments.map ElementSegment.fn_indices).flatten

/-- A run of `count` successive `u32::parse` calls (the element-segment
function-index loop, sections.rs:992-997). -/
def parse_u32_list (bytes : List Nat) : Nat → Nat → PRes (List Nat)
  | cursor, 0 => PRes.ok [] cursor
  | cursor, k + 1 =>
    match u32parse bytes cursor with
    | PRes.ok v c1 =>
      match parse_u32_list bytes c1 k with
      | PRes.ok rest c2 => PRes.ok (v :: rest) c2
      | PRes.err o m => PRes.err o m
      | PRes.panic => PRes.panic
    | PRes.err o m => PRes.err o m
    | PRes.panic => PRes.panic

/-- `ElementSegment::parse` (sections.rs:976-1003), release semantics:
the `debug_assert!` checks on the format id, the `i32.const` opcode and
the `end` byte do not run (the first two still evaluate the
`bytes[*cursor]` read bound to a local, so out-of-range reads panic;
the `end`-byte read happens only inside `debug_assert!` and is
skipped).  The offset is decoded as a u32 and stored as
`ConstExpr::I32(offset as i32)`. -/
def ElementSegment.parse (bytes : List Nat) (cursor : Nat) : PRes ElementSegment :=
  match bytes[cursor]? with
  | none => PRes.panic
  | some _format_id =>
    match bytes[cursor + 1]? with
    | none => PRes.panic
    | some _const_expr_opcode =>
      match u32parse bytes (cursor + 2) with
      | PRes.ok offset c1 =>
        match u32parse bytes (c1 + 1) with
        | PRes.ok num_elems c2 =>
          match parse_u32_list bytes c2 num_elems with
          | PRes.ok fn_indices c3 =>
            PRes.ok ⟨ConstExpr.i32 (i32_of_u32 offset), fn_indices⟩ c3
          | PRes.err o m => PRes.err o m
          | PRes.panic => PRes.panic
        | PRes.err o m => PRes.err o m
        | PRes.panic => PRes.panic
      | PRes.err o m => PRes.err o m
      | PRes.panic => PRes.panic

/-- The `for _ in 0..num_segments` loop of `ElementSection::parse`
(sections.rs:1082-1087). -/
def element_segments_parse (bytes : List Nat) : Nat → Nat → PRes (List ElementSegment)
  | cursor, 0 => PRes.ok [] cursor
  | cursor, k + 1 =>
    match ElementSegment.parse bytes cursor with
    | PRes.ok seg c1 =>
      match element_segments_parse bytes c1 k with
      | PRes.ok rest c2 => PRes.ok (seg :: rest) c2
      | PRes.err o m => PRes.err o m
      | PRes.panic => PRes.panic
    | PRes.err o m => PRes.err o m
    | PRes.panic => PRes.panic

/-- `ElementSection::parse` (sections.rs:1068-1092): zero declared
segments (or an absent section) synthesizes one segment with offset
`ConstExpr::I32(1)` and no function indices; otherwise the declared
number of segments is parsed and the cursor jumps to the section end. -/
def ElementSection.parse (module_bytes : List Nat) (cursor : Nat) : PRes ElementSection :=
  match parse_section 9 module_bytes cursor with
  | PRes.ok (num_segments, _rs, re) c =>
    if num_segments = 0 then PRes.ok ⟨[⟨ConstExpr.i32 1, []⟩]⟩ re
    else
      match element_segments_parse module_bytes c num_segments with
      | PRes.ok segments _ => PRes.ok ⟨segments⟩ re
      | PRes.err o m => PRes.err o m
      | PRes.panic => PRes.panic
  | PRes.err o m => PRes.err o m
  | PRes.panic => PRes.panic

/-- `ValueType` from the shared wasm-module value-type enum (not under
`src/`); the byte values are the standard Wasm encodings referenced by
the spec's value-type model. -/
inductive ValueType where
  | i32
  | i64
  | f32
  | f64
deriving DecidableEq, Repr

/-- Single-byte encoding of a value type (standard Wasm: 0x7f..0x7c). -/
def valueTypeByte : ValueType → Nat
  | ValueType.i32 => 0x7f
  | ValueType.i64 => 0x7e
  | ValueType.f32 => 0x7d
  | ValueType.f64 => 0x7c

/-- `Signature` (sections.rs:199-203). -/
structure Signature where
  param_types : List ValueType
  ret_type : Option ValueType
deriving DecidableEq, Repr

/-- Modelled from the spec: `Option<ValueType>` serialization (from
`serialize.rs`, not under `src/`): a count byte (0 or 1) then the
value, exactly the layout `TypeSection::parse` skips over. -/
def retSerialize : Option ValueType → List Nat
  | none => [0]
  | some t => [1, valueTypeByte t]

/-- `impl Serialize for Signature` (sections.rs:209-215): the 0x60
separator, the parameter vector (length varint then one byte per
type), then the optional return type. -/
def Signature.serialize (s : Signature) : List Nat :=
  0x60 :: (lebEncode s.param_types.length ++ s.param_types.map valueTypeByte
    ++ retSerialize s.ret_type)

/-- `TypeSection` (sections.rs:217-223): raw signature bytes plus the
offset of each stored signature within them. -/
structure TypeSection where
  bytes : List Nat
  offsets : List Nat
deriving DecidableEq, Repr

/-- The scan loop of `TypeSection::insert` (sections.rs:234-242):
walk the stored offsets; `break` (give up) at the first offset whose
window `offset .. offset + sig_len` overruns the buffer; return the
index of the first offset whose window equals the candidate bytes. -/
def insert_scan (bytes sig_bytes : List Nat) : List Nat → Nat → Option Nat
  | [], _ => none
  | off :: rest, i =>
    if bytes.length < off + sig_bytes.length then none
    else if (bytes.drop off).take sig_bytes.length = sig_bytes then some i
    else insert_scan bytes sig_bytes rest (i + 1)

/-- `TypeSection::insert` (sections.rs:227-249): serialize the
candidate, scan for a byte-equal match, otherwise append and return
the new (last) index. -/
def TypeSection.insert (t : TypeSection) (s : Signature) : Nat × TypeSection :=
  let sig_bytes := s.serialize
  match insert_scan t.bytes sig_bytes t.offsets 0 with
  | some i => (i, t)
  | none => (t.offsets.length, ⟨t.bytes ++ sig_bytes, t.offsets ++ [t.bytes.length]⟩)

/-- A freshly constructed, empty type section. -/
def TypeSection.empty : TypeSection := ⟨[], []⟩

/-- A sequence of `insert` calls starting from `t` (results
discarded, as when registering function signatures). -/
def TypeSection.insertAll (t : TypeSection) (l : List Signature) : TypeSection :=
  l.foldl (fun acc s => (acc.insert s).2) t

/-- `impl Serialize for TypeSection` via `serialize_bytes_section`
(sections.rs:114-126, 295-299): nothing is written when the byte
buffer is empty; otherwise section id 1, the padded (fixed 5-byte)
section size, the entry count (`offsets.len()`), then the raw bytes. -/
def TypeSection.serialize (t : TypeSection) : List Nat :=
  if t.bytes = [] then []
  else
    let body := lebEncode t.offsets.length ++ t.bytes
    1 :: (lebEncodePadded body.length ++ body)

/-- The offset-reconstruction loop of `TypeSection::parse`
(sections.rs:267-285): record the position, check the 0x60 separator
(error offset is the outer cursor `oc`, already moved to the section
end), decode the parameter count with `.unwrap()` (panic on a
malformed varint), skip one byte per parameter, read the return count
byte (panic when out of range), skip it.  The fuel starts at
`bytes.length + 1` and cannot run out because every iteration advances
the position by at least 3. -/
def ts_walk (oc : Nat) (bytes : List Nat) : Nat → Nat → PRes (List Nat)
  | _, 0 => PRes.panic
  | i, fuel + 1 =>
    if bytes.length ≤ i then PRes.ok [] i
    else if bytes.getD i 0 ≠ 0x60 then
      PRes.err oc "Invalid signature separator in TypeSection"
    else
      match u32parse bytes (i + 1) with
      | PRes.ok n_params c =>
        match bytes[c + n_params]? with
        | none => PRes.panic
        | some n_ret =>
          match ts_walk oc bytes (c + n_params + 1 + n_ret) fuel with
          | PRes.ok offs fin => PRes.ok (i :: offs) fin
          | PRes.err o m => PRes.err o m
          | PRes.panic => PRes.panic
      | _ => PRes.panic

/-- `TypeSection::parse` (sections.rs:260-293): read the section
header, copy the body bytes (the slice `module_bytes[range]` panics
when the range is out of bounds), set the cursor to the range end,
then rebuild the offsets by walking the copied bytes. -/
def TypeSection.parse (module_bytes : List Nat) (cursor : Nat) : PRes TypeSection :=
  match parse_section 1 module_bytes cursor with
  | PRes.ok (_count, rs, re) _ =>
    if rs ≤ re ∧ re ≤ module_bytes.length then
      let bytes := (module_bytes.drop rs).take (re - rs)
      match ts_walk re bytes 0 (bytes.length + 1) with
      | PRes.ok offsets _ => PRes.ok ⟨bytes, offsets⟩ re
      | PRes.err o m => PRes.err o m
      | PRes.panic => PRes.panic
    else PRes.panic
  | PRes.err o m => PRes.err o m
  | PRes.panic => PRes.panic

/-- Concatenated serialized bytes of a list of signatures. -/
def sigsBytes (l : List Signature) : List Nat := (l.map Signature.serialize).flatten

/-- Signature start offsets within `sigsBytes`, beginning at `base`. -/
def offsetsFrom (base : Nat) : List Signature → List Nat
  | [] => []
  | s :: rest => base :: offsetsFrom (base + s.serialize.length) rest

/-- The type section whose stored signatures are exactly `l`, in
order: the well-formed states reachable by `insert` from empty. -/
def TypeSection.ofSigs (l : List Signature) : TypeSection :=
  ⟨sigsBytes l, offsetsFrom 0 l⟩

/-- Modelled from the spec: a `CodeBuilder` (code_builder.rs, not
under `src/`) is opaque to this module; only the serialized body bytes
it appends matter here ("a stream of already-built function bodies
plus their relocation entries (opaque to this core — passed
through)"). -/
structure CodeBuilder where
  body : List Nat
deriving DecidableEq, Repr

/-- `CodeSection` (sections.rs:1108-1115).  The transient
`dead_code_metadata` is modelled separately by `PreloadsCallGraph`
below. -/
structure CodeSection where
  preloaded_count : Nat
  preloaded_bytes : List Nat
  code_builders : List CodeBuilder
deriving DecidableEq, Repr

/-- `impl Serialize for CodeSection` (sections.rs:1219-1232): section
id 10, padded size, one combined count (`preloaded_count +
code_builders.len()`), the preloaded bytes, then each built body. -/
def CodeSection.serialize (s : CodeSection) : List Nat :=
  let body := lebEncode (s.preloaded_count + s.code_builders.length)
    ++ s.preloaded_bytes ++ (s.code_builders.map CodeBuilder.body).flatten
  10 :: (lebEncodePadded body.length ++ body)

/-- `CodeSection::serialize_with_relocs` (sections.rs:1119-1134): the
same header and combined count, but only the code builders are
serialized — the function never touches `preloaded_bytes`.
(Relocation entries are pass-through and carry no byte content.) -/
def CodeSection.serialize_with_relocs (s : CodeSection) : List Nat :=
  let body := lebEncode (s.preloaded_count + s.code_builders.length)
    ++ (s.code_builders.map CodeBuilder.body).flatten
  10 :: (lebEncodePadded body.length ++ body)

/-- Modelled from the spec: the call-graph metadata built by
`parse_preloads_call_graph` (dead_code.rs, not under `src/`), §3
"Call-graph metadata" and §4.6 step 1 of the spec.  Function `i` of
`bodies` is preloaded function number `i`; its whole-module index is
`import_fn_count + i`.  `bodies[i]` lists the whole-module function
indices the body calls: direct call targets plus, for each
`call_indirect` site, every element-table entry whose signature
matches (the conservative over-approximation the spec mandates). -/
structure PreloadsCallGraph where
  import_fn_count : Nat
  bodies : List (List Nat)
deriving DecidableEq, Repr

/-- One round of call-graph propagation: keep `s` and add every call
target of a preloaded function whose whole-module index is already in
`s`. -/
def cgStep (g : PreloadsCallGraph) (s : Finset Nat) : Finset Nat :=
  s ∪ (Finset.range g.bodies.length).biUnion fun i =>
    if g.import_fn_count + i ∈ s then (g.bodies.getD i []).toFinset else ∅

/-- Modelled from the spec: `trace_call_graph` (dead_code.rs, not
under `src/`), §4.6 steps 2-3: seed with the root set (exports ∪
indirect-call targets ∪ functions called by freshly generated code)
and trace transitive reachability to a fixed point; iterating one more
time than there are preloaded functions is enough to saturate. -/
def trace_call_graph (g : PreloadsCallGraph) (roots : List Nat) : Finset Nat :=
  (cgStep g)^[g.bodies.length + 1] roots.toFinset

/-- Specification of reachability from the root set: the roots, closed
under following call edges out of preloaded functions. -/
inductive Reach (g : PreloadsCallGraph) (roots : List Nat) : Nat → Prop where
  | root (r : Nat) (hr : r ∈ roots) : Reach g roots r
  | step (u v : Nat) (hu : Reach g roots u) (hle : g.import_fn_count ≤ u)
      (hlt : u - g.import_fn_count < g.bodies.length)
      (hv : v ∈ g.bodies.getD (u - g.import_fn_count) []) : Reach g roots v

/-- Preloaded function numbers (positions in `bodies`) kept by
dead-code elimination: those whose whole-module index is live. -/
def live_preload_indices (g : PreloadsCallGraph) (roots : List Nat) : List Nat :=
  (List.range g.bodies.length).filter fun i => g.import_fn_count + i ∈ trace_call_graph g roots

/-- Modelled from the spec: the index remapping produced by
`copy_preloads_shrinking_dead_fns` (dead_code.rs, not under `src/`),
§4.6 step 4: expressed in whole-module index space, imports keep their
index, a live preloaded function maps to the import count plus its
rank among the survivors, a dead one maps to `none` ("removed"). -/
def fn_index_remap (g : PreloadsCallGraph) (roots : List Nat) (old : Nat) : Option Nat :=
  if old < g.import_fn_count then some old
  else
    match listPos (live_preload_indices g roots) (old - g.import_fn_count) with
    | some rank => some (g.import_fn_count + rank)
    | none => none

/-- Modelled from the spec: `copy_preloads_shrinking_dead_fns`
(dead_code.rs, not under `src/`), §4.6 step 4: keep only the live
functions' bodies, in their original relative order, with every call
site rewritten through the remap (`none` marks a reference to a
removed function, which must never occur). -/
def copy_preloads_shrinking_dead_fns (g : PreloadsCallGraph) (roots : List Nat) :
    List (List (Option Nat)) :=
  (live_preload_indices g roots).map fun i =>
    (g.bodies.getD i []).map (fn_index_remap g roots)

/-- Follows the spec's words for the max-table-index claim: "the
maximum over all segments of segment offset plus the position of its
last function index" — the highest occupied slot.  A segment with no
function indices occupies no slot and contributes nothing; a non-I32
offset contributes `none`. -/
def spec_max_table_index_aux : List ElementSegment → Option Int
  | [] => none
  | s :: rest =>
    let cur : Option Int :=
      match s.offset.unwrap_i32, s.fn_indices.length with
      | some off, Nat.succ k => some (off + k)
      | _, _ => none
    match cur, spec_max_table_index_aux rest with
    | some a, some b => some (max a b)
    | some a, none => some a
    | none, o => o

/-- The highest occupied table slot of an element section, per the
spec's words. -/
def ElementSection.spec_max_table_index (sec : ElementSection) : Option Int :=
  spec_max_table_index_aux sec.segments

/-! ### Helper lemmas -/

theorem listPos_eq_none {α : Type} [DecidableEq α] {l : List α} {a : α} (h : a ∉ l) :
    listPos l a = none := by
  induction l with
  | nil => rfl
  | cons x rest ih =>
    simp only [List.mem_cons, not_or] at h
    have hxa : x ≠ a := fun e => h.1 e.symm
    simp only [listPos, if_neg hxa, ih h.2, Option.map_none']

theorem listPos_concat_self {α : Type} [DecidableEq α] {l : List α} {a : α} (h : a ∉ l) :
    listPos (l ++ [a]) a = some l.length := by
  induction l with
  | nil => simp [listPos]
  | cons x rest ih =>
    simp only [List.mem_cons, not_or] at h
    have hxa : x ≠ a := fun e => h.1 e.symm
    simp only [List.cons_append, listPos, if_neg hxa, List.append_eq, ih h.2,
      Option.map_some', List.length_cons]

theorem listPos_ne_none {α : Type} [DecidableEq α] {l : List α} {a : α} (h : a ∈ l) :
    listPos l a ≠ none := by
  induction l with
  | nil => simp at h
  | cons x rest ih =>
    by_cases hxa : x = a
    · simp [listPos, hxa]
    · rcases List.mem_cons.mp h with h1 | h2
      · exact absurd h1.symm hxa
      · simp only [listPos, if_neg hxa]
        cases hp : listPos rest a with
        | none => exact absurd hp (ih h2)
        | some k => simp

theorem i32_wrap_eq {z : Int} (h1 : -(2 ^ 31) ≤ z) (h2 : z < 2 ^ 31) : i32_wrap z = z := by
  show (z + 2 ^ 31) % 2 ^ 32 - 2 ^ 31 = z
  omega

theorem i32_of_u32_small {n : Nat} (h : n < 2 ^ 31) : i32_of_u32 n = n := by
  unfold i32_of_u32
  rw [Nat.mod_eq_of_lt (by omega), if_pos h]
  omega

theorem i32_add_eq {x y : Int} (hx : 0 ≤ x) (hy : 0 ≤ y) (hsum : x + y < 2 ^ 31) :
    i32_add x y = x + y :=
  i32_wrap_eq (by omega) hsum

/-! ### C5 — code section serialization -/

/-- C5: at the failing input `CodeSection { preloaded_count: 1,
preloaded_bytes: [0xAB], code_builders: [] }`, the plain `Serialize`
path writes the combined count followed by the preloaded bytes, but
`serialize_with_relocs` writes the same combined count (1) and then no
function bodies at all — the preloaded bytes never reach the buffer,
so the two paths disagree and the claimed layout fails for
`serialize_with_relocs`. -/
theorem C5_serialize_with_relocs_drops_preloads :
    CodeSection.serialize ⟨1, [0xAB], []⟩ = [10, 130, 128, 128, 128, 0, 1, 0xAB] ∧
    CodeSection.serialize_with_relocs ⟨1, [0xAB], []⟩ = [10, 129, 128, 128, 128, 0, 1] ∧
    CodeSection.serialize_with_relocs ⟨1, [0xAB], []⟩ ≠ CodeSection.serialize ⟨1, [0xAB], []⟩ := by
  decide

/-! ### C9 — DataMode tag bytes -/

/-- C9 counterexample: serializing a `Passive` data mode produces the
single byte `[0]`, and parsing that buffer panics (the Active branch
reads a constant expression past the end of the buffer) — it does not
yield an `Active` mode as claimed. -/
theorem C9_counterexample :
    DataMode.serialize DataMode.passive = [0] ∧
    DataMode.parse [0] 0 = PRes.panic := by
  decide

/-- C9 (amended): both `DataMode` variants serialize tag byte 0;
`DataMode::parse` takes the Active branch on tag 0 (yielding `Active`
exactly when the following bytes form a valid i32 constant
expression), returns a structured `ParseError` for every other tag
byte (including 1), and never produces the `Passive` variant; parsing
the exact serialization of a `Passive` mode panics on the missing
constant expression rather than yielding an `Active` mode. -/
theorem C9_data_mode_tags :
    (∀ e : ConstExpr, (DataMode.serialize (DataMode.active e)).head? = some 0) ∧
    DataMode.serialize DataMode.passive = [0] ∧
    (∀ (bytes : List Nat) (c off c' : Nat), bytes[c]? = some 0 →
      ConstExpr.parse_u32 bytes (c + 1) = PRes.ok off c' →
      DataMode.parse bytes c = PRes.ok (DataMode.active (ConstExpr.i32 (i32_of_u32 off))) c') ∧
    (∀ (bytes : List Nat) (c b : Nat), bytes[c]? = some b → b ≠ 0 →
      DataMode.parse bytes c =
        PRes.err c ("Data section: invalid DataMode variant 0x" ++ natToHex b)) ∧
    (∀ (bytes : List Nat) (c c' : Nat), DataMode.parse bytes c ≠ PRes.ok DataMode.passive c') ∧
    DataMode.parse (DataMode.serialize DataMode.passive) 0 = PRes.panic := by
  refine ⟨fun e => rfl, rfl, ?_, ?_, ?_, by decide⟩
  · intro bytes c off c' hget hce
    simp [DataMode.parse, hget, hce, DataMode.ACTIVE]
  · intro bytes c b hget hb
    simp only [DataMode.parse, hget, DataMode.ACTIVE, DataMode.PASSIVE, if_neg hb]
  · intro bytes c c' h
    cases hget : bytes[c]? with
    | none =>
      simp only [DataMode.parse, hget] at h
      exact PRes.noConfusion h
    | some b =>
      simp only [DataMode.parse, hget, DataMode.ACTIVE, DataMode.PASSIVE] at h
      by_cases hb : b = 0
      · rw [if_pos hb] at h
        cases hce : ConstExpr.parse_u32 bytes (c + 1) with
        | ok v k => rw [hce] at h; simp at h
        | err o m => rw [hce] at h; simp at h
        | panic => rw [hce] at h; simp at h
      · rw [if_neg hb, if_neg hb] at h
        simp at h

/-- C9 witness: the amended facts applied at concrete inputs — tag 5
is rejected with the formatted message; a valid Active encoding
parses; parsing never gives Passive on a concrete buffer. -/
theorem C9_witness :
    DataMode.parse [5] 0 =
      PRes.err 0 ("Data section: invalid DataMode variant 0x" ++ natToHex 5) ∧
    DataMode.parse [0, 0x41, 7, 0x0b] 0 =
      PRes.ok (DataMode.active (ConstExpr.i32 (i32_of_u32 7))) 4 ∧
    DataMode.parse [0, 0x41, 7, 0x0b] 0 ≠ PRes.ok DataMode.passive 4 := by
  refine ⟨?_, ?_, ?_⟩
  · exact C9_data_mode_tags.2.2.2.1 [5] 0 5 rfl (by decide)
  · exact C9_data_mode_tags.2.2.1 [0, 0x41, 7, 0x0b] 0 7 4 rfl (by decide)
  · exact C9_data_mode_tags.2.2.2.2.1 [0, 0x41, 7, 0x0b] 0 4

/-! ### C6 — element-table slot assignment -/

/-- C6 counterexample: in a two-segment element section whose last
segment does not attain the maximum occupied slot, inserting a fresh
function index returns slot 0 while `max_table_index()` returned 11
immediately before — the claimed equality fails. -/
theorem C6_counterexample :
    (ElementSection.get_fn_table_index
        ⟨[⟨ConstExpr.i32 10, [0]⟩, ⟨ConstExpr.i32 0, []⟩]⟩ 5).map Prod.fst =
      some (0 : Int) ∧
    ElementSection.max_table_index ⟨[⟨ConstExpr.i32 10, [0]⟩, ⟨ConstExpr.i32 0, []⟩]⟩ =
      some 11 ∧
    ([⟨ConstExpr.i32 10, [0]⟩, ⟨ConstExpr.i32 0, []⟩] :
        List ElementSegment).getLast? = some ⟨ConstExpr.i32 0, []⟩ ∧
    (0 : Int) ≠ (11 : Int) := by
  decide

/-- C6 (amended): `get_fn_table_index` is idempotent — whenever a call
succeeds, repeating it with the same function index returns the same
table index and leaves the section unchanged (the wrapping i32
arithmetic is applied identically on both calls); and inserting a
fresh index returns the slot `offset + len` of the last segment
provided that sum does not overflow i32 (`0 ≤ offset` and
`offset + len < 2^31`), which equals the prior `max_table_index()`
exactly when the last segment attains that maximum (as in the
single-segment case that occurs in practice). -/
theorem C6_get_fn_table_index (sec : ElementSection) (f : Nat) :
    (∀ (t : Int) (sec' : ElementSection), sec.get_fn_table_index f = some (t, sec') →
      sec'.get_fn_table_index f = some (t, sec')) ∧
    (∀ (seg : ElementSegment) (off : Int) (m : Nat),
      sec.segments.getLast? = some seg → seg.offset.unwrap_i32 = some off →
      f ∉ seg.fn_indices → sec.max_table_index = some m →
      off + seg.fn_indices.length = (m : Int) →
      0 ≤ off → off + seg.fn_indices.length < 2 ^ 31 →
      (sec.get_fn_table_index f).map Prod.fst = some (m : Int)) := by
  constructor
  · intro t sec' h
    cases hlast : sec.segments.getLast? with
    | none =>
      simp only [ElementSection.get_fn_table_index, hlast] at h
      exact Option.noConfusion h
    | some seg =>
      cases hoff : seg.offset.unwrap_i32 with
      | none =>
        simp only [ElementSection.get_fn_table_index, hlast, hoff] at h
        exact Option.noConfusion h
      | some off =>
        cases hpos : listPos seg.fn_indices f with
        | some pos =>
          simp only [ElementSection.get_fn_table_index, hlast, hoff, hpos,
            Option.some.injEq, Prod.mk.injEq] at h
          obtain ⟨h1, h2⟩ := h
          subst h2
          simp only [ElementSection.get_fn_table_index, hlast, hoff, hpos,
            Option.some.injEq, Prod.mk.injEq]
          exact ⟨h1, trivial⟩
        | none =>
          simp only [ElementSection.get_fn_table_index, hlast, hoff, hpos,
            Option.some.injEq, Prod.mk.injEq] at h
          obtain ⟨h1, h2⟩ := h
          subst h2
          have hnm : f ∉ seg.fn_indices := fun hmem => listPos_ne_none hmem hpos
          simp only [ElementSection.get_fn_table_index, List.getLast?_concat,
            hoff, listPos_concat_self hnm, Option.some.injEq, Prod.mk.injEq]
          exact ⟨h1, trivial⟩
  · intro seg off m hlast hoff hnm hmax hsum hpos hbound
    have hlen : seg.fn_indices.length < 2 ^ 31 := by omega
    have hadd : i32_add off (i32_of_u32 seg.fn_indices.length)
        = off + seg.fn_indices.length := by
      rw [i32_of_u32_small hlen]
      exact i32_add_eq hpos (Int.natCast_nonneg _) hbound
    simp only [ElementSection.get_fn_table_index, hlast, hoff, listPos_eq_none hnm,
      hadd, Option.map_some', Option.some.injEq]
    exact hsum

/-- C6 witness: on the single-segment section with offset 0 holding
`[7]`, inserting fresh index 9 returns slot 1 — the prior
`max_table_index()` — and repeating the call on the updated section
returns the same slot and changes nothing. -/
theorem C6_witness :
    (ElementSection.get_fn_table_index ⟨[⟨ConstExpr.i32 0, [7]⟩]⟩ 9).map Prod.fst =
      some ((1 : Nat) : Int) ∧
    ElementSection.get_fn_table_index ⟨[⟨ConstExpr.i32 0, [7, 9]⟩]⟩ 9 =
      some (1, ⟨[⟨ConstExpr.i32 0, [7, 9]⟩]⟩) := by
  constructor
  · exact (C6_get_fn_table_index ⟨[⟨ConstExpr.i32 0, [7]⟩]⟩ 9).2 ⟨ConstExpr.i32 0, [7]⟩ 0 1
      (by decide) (by decide) (by decide) (by decide) (by decide) (by decide) (by decide)
  · exact (C6_get_fn_table_index ⟨[⟨ConstExpr.i32 0, [7]⟩]⟩ 9).1 1 ⟨[⟨ConstExpr.i32 0, [7, 9]⟩]⟩
      (by decide)

/-! ### C7 — max_table_index -/

theorem max_aux_eq (l : List ElementSegment) (r : Int) (hr : 0 ≤ r)
    (hseg : ∀ s ∈ l, s.fn_indices ≠ [] ∧
      ∃ off : Int, s.offset.unwrap_i32 = some off ∧ 0 ≤ off ∧
        off + s.fn_indices.length < 2 ^ 31)
    (hl : l ≠ []) :
    ∃ m : Int, spec_max_table_index_aux l = some m ∧ 0 ≤ m ∧
      max_table_index_aux l r = some (max r (m + 1)) := by
  induction l generalizing r with
  | nil => exact absurd rfl hl
  | cons s rest ih =>
    obtain ⟨hne, off, hoff, hoffpos, hbound⟩ := hseg s (List.mem_cons_self s rest)
    have hlen31 : s.fn_indices.length < 2 ^ 31 := by omega
    have hadd : i32_add off (i32_of_u32 s.fn_indices.length) = off + s.fn_indices.length := by
      rw [i32_of_u32_small hlen31]
      exact i32_add_eq hoffpos (Int.natCast_nonneg _) hbound
    obtain ⟨k, hk⟩ : ∃ k, s.fn_indices.length = k + 1 := by
      cases hlen : s.fn_indices with
      | nil => exact absurd hlen hne
      | cons a t => exact ⟨t.length, by simp⟩
    by_cases hrest : rest = []
    · subst hrest
      refine ⟨off + k, ?_, by omega, ?_⟩
      · simp only [spec_max_table_index_aux, hoff, hk]
      · simp only [max_table_index_aux, hoff, hadd]
        simp only [hk]
        congr 1
        push_cast
        omega
    · obtain ⟨m2, hs2, hm2, hmax2⟩ :=
        ih (max r (off + s.fn_indices.length))
          (le_trans hr (le_max_left r (off + s.fn_indices.length)))
          (fun t ht => hseg t (List.mem_cons_of_mem s ht)) hrest
      refine ⟨max (off + k) m2, ?_, by omega, ?_⟩
      · simp only [spec_max_table_index_aux, hoff, hk, hs2]
      · simp only [max_table_index_aux, hoff, hadd, hmax2]
        congr 1
        rw [hk]
        push_cast
        simp only [max_def]
        split_ifs <;> omega

/-- C7 counterexample: for a single segment at offset 0 holding one
function index, the highest occupied slot (the spec's "offset plus the
position of its last function index") is 0, but `max_table_index()`
returns 1 — one past it. -/
theorem C7_counterexample :
    ElementSection.max_table_index ⟨[⟨ConstExpr.i32 0, [7]⟩]⟩ = some 1 ∧
    ElementSection.spec_max_table_index ⟨[⟨ConstExpr.i32 0, [7]⟩]⟩ = some 0 ∧
    ElementSection.max_table_index ⟨[⟨ConstExpr.i32 0, [7]⟩]⟩ ≠
      (ElementSection.spec_max_table_index ⟨[⟨ConstExpr.i32 0, [7]⟩]⟩).map Int.toNat := by
  decide

/-- C7 (amended): for every element section whose segments are all
nonempty with nonnegative I32 offsets and whose `offset + count` sums
stay below 2^31 (no i32 overflow), `max_table_index()` returns one
more than the highest occupied table slot, i.e. the maximum over all
segments of segment offset plus the number of its function indices
(the table size, not the last occupied slot). -/
theorem C7_max_table_index (sec : ElementSection)
    (hne : sec.segments ≠ [])
    (hseg : ∀ s ∈ sec.segments, s.fn_indices ≠ [] ∧
      ∃ off : Int, s.offset.unwrap_i32 = some off ∧ 0 ≤ off ∧
        off + s.fn_indices.length < 2 ^ 31) :
    ∃ m : Int, sec.spec_max_table_index = some m ∧ 0 ≤ m ∧
      sec.max_table_index = some (m.toNat + 1) := by
  obtain ⟨m, h1, h2, h3⟩ := max_aux_eq sec.segments 0 (le_refl 0) hseg hne
  refine ⟨m, h1, h2, ?_⟩
  unfold ElementSection.max_table_index
  rw [h3, max_eq_right (by omega : (0 : Int) ≤ m + 1), Option.map_some']
  congr 1
  omega

/-- C7 witness: the amended statement at a concrete two-segment
section — highest occupied slot 4 (offset 3 plus position 1), and
`max_table_index` returns 5. -/
theorem C7_witness :
    ElementSection.max_table_index ⟨[⟨ConstExpr.i32 0, [9]⟩, ⟨ConstExpr.i32 3, [4, 6]⟩]⟩ =
      some 5 := by
  obtain ⟨m, h1, _, h3⟩ :=
    C7_max_table_index ⟨[⟨ConstExpr.i32 0, [9]⟩, ⟨ConstExpr.i32 3, [4, 6]⟩]⟩
      (by decide)
      (by
        intro s hs
        simp only [List.mem_cons, List.mem_singleton, List.not_mem_nil, or_false] at hs
        rcases hs with h | h <;> subst h
        · exact ⟨by decide, 0, rfl, by decide, by decide⟩
        · exact ⟨by decide, 3, rfl, by decide, by decide⟩)
  have hm : m = 4 := by
    have : ElementSection.spec_max_table_index
        ⟨[⟨ConstExpr.i32 0, [9]⟩, ⟨ConstExpr.i32 3, [4, 6]⟩]⟩ = some 4 := by decide
    rw [this] at h1
    exact (Option.some.injEq _ _ ▸ h1).symm
  rw [hm] at h3
  simpa using h3

/-! ### C8 — table section parsing -/

/-- C8: an absent table section (wrong leading id with input left) or
a declared count of zero synthesizes an empty funcref table with
`Limits::MinMax(0, 0)`; a count of two or more is the "Multiple tables
are not supported" parse error; a single table whose reference-type
byte is not funcref (0x70) is the "Only funcref tables are supported"
parse error. -/
theorem C8_table_section_parse :
    (∀ (bytes : List Nat) (c : Nat), c < bytes.length → bytes.getD c 0 ≠ 4 →
      TableSection.parse bytes c = PRes.ok ⟨⟨RefType.func, Limits.minMax 0 0⟩⟩ c) ∧
    (∀ (bytes : List Nat) (c rs re c' : Nat),
      parse_section 4 bytes c = PRes.ok (0, rs, re) c' →
      TableSection.parse bytes c = PRes.ok ⟨⟨RefType.func, Limits.minMax 0 0⟩⟩ re) ∧
    (∀ (bytes : List Nat) (c count rs re c' : Nat),
      parse_section 4 bytes c = PRes.ok (count, rs, re) c' → 2 ≤ count →
      TableSection.parse bytes c = PRes.err c' "Multiple tables are not supported") ∧
    (∀ (bytes : List Nat) (c rs re c' b : Nat),
      parse_section 4 bytes c = PRes.ok (1, rs, re) c' →
      bytes[rs]? = some b → b ≠ 0x70 →
      TableSection.parse bytes c = PRes.err c' "Only funcref tables are supported") := by
  refine ⟨?_, ?_, ?_, ?_⟩
  · intro bytes c hlt hne
    have hps : parse_section 4 bytes c = PRes.ok (0, c, c) c := by
      simp only [parse_section, not_le.mpr hlt, if_false, ne_eq, hne, not_false_eq_true,
        if_true]
    simp only [TableSection.parse, hps]
  · intro bytes c rs re c' hps
    simp only [TableSection.parse, hps]
  · intro bytes c count rs re c' hps hcount
    obtain ⟨k, rfl⟩ : ∃ k, count = k + 2 := ⟨count - 2, by omega⟩
    simp only [TableSection.parse, hps]
  · intro bytes c rs re c' b hps hget hb
    simp only [TableSection.parse, hps, hget]
    rw [if_pos hb]

/-- C8 witness: the four behaviours at concrete byte streams — absent
section (leading byte 0), present with zero tables, two declared
tables, and a single table with reference type 0x6f (externref). -/
theorem C8_witness :
    TableSection.parse [0] 0 = PRes.ok ⟨⟨RefType.func, Limits.minMax 0 0⟩⟩ 0 ∧
    TableSection.parse [4, 1, 0] 0 = PRes.ok ⟨⟨RefType.func, Limits.minMax 0 0⟩⟩ 3 ∧
    TableSection.parse [4, 1, 2] 0 = PRes.err 3 "Multiple tables are not supported" ∧
    TableSection.parse [4, 2, 1, 0x6f] 0 = PRes.err 3 "Only funcref tables are supported" := by
  refine ⟨?_, ?_, ?_, ?_⟩
  · exact C8_table_section_parse.1 [0] 0 (by decide) (by decide)
  · exact C8_table_section_parse.2.1 [4, 1, 0] 0 3 3 3 (by decide)
  · exact C8_table_section_parse.2.2.1 [4, 1, 2] 0 2 3 3 3 (by decide) (by decide)
  · exact C8_table_section_parse.2.2.2 [4, 2, 1, 0x6f] 0 3 4 3 0x6f (by decide) (by decide)
      (by decide)

/-! ### C10 — element section always has a segment -/

theorem element_segments_parse_ne_nil {bytes : List Nat} {c k : Nat} {l : List ElementSegment}
    {c' : Nat} (h : element_segments_parse bytes c (k + 1) = PRes.ok l c') : l ≠ [] := by
  simp only [element_segments_parse] at h
  split at h
  · split at h
    · simp only [PRes.ok.injEq] at h
      rw [← h.1]
      simp
    · exact PRes.noConfusion h
    · exact PRes.noConfusion h
  · exact PRes.noConfusion h
  · exact PRes.noConfusion h

/-- C10: every successful element-section parse yields at least one
segment; an absent section (non-matching id byte with input left)
synthesizes exactly one segment with offset `ConstExpr::I32(1)` and no
function indices; and the first `get_fn_table_index` call on such a
section hands out table index 1 (the segment offset), so the
last-segment unwrap cannot fail. -/
theorem C10_element_section_parse :
    (∀ (bytes : List Nat) (c : Nat) (sec : ElementSection) (c' : Nat),
      ElementSection.parse bytes c = PRes.ok sec c' → sec.segments ≠ []) ∧
    (∀ (bytes : List Nat) (c : Nat), c < bytes.length → bytes.getD c 0 ≠ 9 →
      ElementSection.parse bytes c = PRes.ok ⟨[⟨ConstExpr.i32 1, []⟩]⟩ c) ∧
    (∀ f : Nat,
      (ElementSection.get_fn_table_index ⟨[⟨ConstExpr.i32 1, []⟩]⟩ f).map Prod.fst =
        some (1 : Int)) := by
  refine ⟨?_, ?_, ?_⟩
  · intro bytes c sec c' h
    cases hps : parse_section 9 bytes c with
    | ok v c2 =>
      obtain ⟨num, rs, re⟩ := v
      simp only [ElementSection.parse, hps] at h
      by_cases hnum : num = 0
      · rw [if_pos hnum] at h
        simp only [PRes.ok.injEq] at h
        rw [← h.1]
        simp
      · rw [if_neg hnum] at h
        cases hsegs : element_segments_parse bytes c2 num with
        | ok segs c3 =>
          rw [hsegs] at h
          simp only [PRes.ok.injEq] at h
          obtain ⟨k, hk⟩ : ∃ k, num = k + 1 := ⟨num - 1, by omega⟩
          rw [hk] at hsegs
          rw [← h.1]
          exact element_segments_parse_ne_nil hsegs
        | err o m => rw [hsegs] at h; exact PRes.noConfusion h
        | panic => rw [hsegs] at h; exact PRes.noConfusion h
    | err o m => simp only [ElementSection.parse, hps] at h; exact PRes.noConfusion h
    | panic => simp only [ElementSection.parse, hps] at h; exact PRes.noConfusion h
  · intro bytes c hlt hne
    have hps : parse_section 9 bytes c = PRes.ok (0, c, c) c := by
      simp only [parse_section, not_le.mpr hlt, if_false, ne_eq, hne, not_false_eq_true,
        if_true]
    simp only [ElementSection.parse, hps, if_true]
  · intro f
    have hval : i32_add 1 (i32_of_u32 0) = 1 := by decide
    simp only [ElementSection.get_fn_table_index]
    simp [listPos, ConstExpr.unwrap_i32, hval]

/-- C10 witness: the facts at concrete inputs — a stream declaring one
(empty-offset-range) segment parses to a nonempty segment list; the
absent-section stream `[0]` synthesizes the default segment; a first
indexing call returns table index 1. -/
theorem C10_witness :
    (⟨[⟨ConstExpr.i32 1, []⟩]⟩ : ElementSection).segments ≠ [] ∧
    ElementSection.parse [0] 0 = PRes.ok ⟨[⟨ConstExpr.i32 1, []⟩]⟩ 0 ∧
    (ElementSection.get_fn_table_index ⟨[⟨ConstExpr.i32 1, []⟩]⟩ 42).map Prod.fst =
      some (1 : Int) := by
  refine ⟨?_, ?_, ?_⟩
  · exact C10_element_section_parse.1 [0] 0 ⟨[⟨ConstExpr.i32 1, []⟩]⟩ 0
      (C10_element_section_parse.2.1 [0] 0 (by decide) (by decide))
  · exact C10_element_section_parse.2.1 [0] 0 (by decide) (by decide)
  · exact C10_element_section_parse.2.2 42

/-! ### C2 — parse errors versus panics -/

/-- C2 counterexample: `Limits::parse` on the two-byte input
`[1, 0x80]` (a MinMax tag followed by a truncated varint) panics — the
source `.unwrap()`s the failed varint parse — instead of returning a
structured `ParseError`, so "never panics" fails on malformed input. -/
theorem C2_counterexample : Limits.parse [1, 128] 0 = PRes.panic := by decide

/-- C2 (amended): the explicit validation steps return structured
`ParseError`s carrying the byte offset and a message — end of input and
varint failures in `parse_section`, a wrong signature separator in the
type-section walk, a wrong constant-expression opcode — but steps that
`.unwrap()` varints or index the buffer directly (e.g. `Limits::parse`)
panic on truncated or malformed input instead of returning an error,
and the element-segment format id is checked only by debug assertions,
so release-mode parsing accepts an unsupported format id without an
error. -/
theorem C2_parse_error_discipline :
    (∀ (id : Nat) (bytes : List Nat) (c : Nat), bytes.length ≤ c →
      parse_section id bytes c = PRes.err c "End of file") ∧
    (∀ (id : Nat) (bytes : List Nat) (c o : Nat) (msg : String),
      c < bytes.length → bytes.getD c 0 = id → u32parse bytes (c + 1) = PRes.err o msg →
      parse_section id bytes c = PRes.err o msg) ∧
    (∀ (bytes : List Nat) (c b : Nat), bytes[c]? = some b → b ≠ 0x41 →
      ConstExpr.parse_u32 bytes c = PRes.err c "Invalid ConstExpr. Expected i32.") ∧
    (∀ (oc : Nat) (bytes : List Nat) (i fuel : Nat), i < bytes.length →
      bytes.getD i 0 ≠ 0x60 →
      ts_walk oc bytes i (fuel + 1) =
        PRes.err oc "Invalid signature separator in TypeSection") ∧
    (∀ (bytes : List Nat) (c b o : Nat) (msg : String), bytes[c]? = some b →
      u32parse bytes (c + 1) = PRes.err o msg → Limits.parse bytes c = PRes.panic) ∧
    ElementSegment.parse [1, 0x41, 0, 0x0b, 0] 0 = PRes.ok ⟨ConstExpr.i32 0, []⟩ 5 := by
  refine ⟨?_, ?_, ?_, ?_, ?_, by decide⟩
  · intro id bytes c h
    simp only [parse_section, if_pos h]
  · intro id bytes c o msg hlt hid hu
    have h1 := not_le.mpr hlt
    simp [parse_section, h1, hid, hu]
    simpa using hid
  · intro bytes c b hget hb
    simp only [ConstExpr.parse_u32, hget]
    rw [if_pos hb]
  · intro oc bytes i fuel hlt hsep
    simp only [ts_walk, not_le.mpr hlt, if_false]
    rw [if_pos hsep]
  · intro bytes c b o msg hget hu
    simp only [Limits.parse, hget, hu]

/-- C2 witness: each amended fact at a concrete input — end of file,
a truncated varint surfacing as a `ParseError` from `parse_section`, a
wrong const-expr opcode, a wrong signature separator, and the
`Limits::parse` panic on the same kind of truncated varint. -/
theorem C2_witness :
    parse_section 1 [] 0 = PRes.err 0 "End of file" ∧
    parse_section 1 [1, 128] 0 = PRes.err 1 "Invalid LEB-128 integer" ∧
    ConstExpr.parse_u32 [0x42] 0 = PRes.err 0 "Invalid ConstExpr. Expected i32." ∧
    ts_walk 9 [0x61] 0 2 = PRes.err 9 "Invalid signature separator in TypeSection" ∧
    Limits.parse [0, 128] 0 = PRes.panic := by
  refine ⟨?_, ?_, ?_, ?_, ?_⟩
  · exact C2_parse_error_discipline.1 1 [] 0 (by decide)
  · exact C2_parse_error_discipline.2.1 1 [1, 128] 0 1 "Invalid LEB-128 integer"
      (by decide) (by decide) (by decide)
  · exact C2_parse_error_discipline.2.2.1 [0x42] 0 0x42 (by decide) (by decide)
  · exact C2_parse_error_discipline.2.2.2.1 9 [0x61] 0 1 (by decide) (by decide)
  · exact C2_parse_error_discipline.2.2.2.2.1 [0, 128] 0 0 1 "Invalid LEB-128 integer"
      (by decide) (by decide)

/-! ### C1 — dead-code elimination -/

theorem cgStep_extensive (g : PreloadsCallGraph) (s : Finset Nat) : s ⊆ cgStep g s :=
  Finset.subset_union_left

theorem iterate_cgStep_subset (g : PreloadsCallGraph) (s : Finset Nat) :
    ∀ k : Nat, s ⊆ (cgStep g)^[k] s := by
  intro k
  induction k with
  | zero => simp
  | succ k ih =>
    rw [Function.iterate_succ_apply']
    exact ih.trans (cgStep_extensive g _)

theorem mem_iterate_reach (g : PreloadsCallGraph) (roots : List Nat) :
    ∀ (k : Nat) (x : Nat), x ∈ (cgStep g)^[k] roots.toFinset → Reach g roots x := by
  intro k
  induction k with
  | zero =>
    intro x hx
    simp only [Function.iterate_zero_apply, List.mem_toFinset] at hx
    exact Reach.root x hx
  | succ k ih =>
    intro x hx
    rw [Function.iterate_succ_apply'] at hx
    rcases Finset.mem_union.mp hx with h | h
    · exact ih x h
    · obtain ⟨i, hi, hxin⟩ := Finset.mem_biUnion.mp h
      have hilt := Finset.mem_range.mp hi
      by_cases hcond : g.import_fn_count + i ∈ (cgStep g)^[k] roots.toFinset
      · rw [if_pos hcond] at hxin
        refine Reach.step (g.import_fn_count + i) x (ih _ hcond) (Nat.le_add_right _ _) ?_ ?_
        · rwa [Nat.add_sub_cancel_left]
        · rw [Nat.add_sub_cancel_left]
          exact List.mem_toFinset.mp hxin
      · rw [if_neg hcond] at hxin
        exact absurd hxin (Finset.not_mem_empty x)

/-- The whole-module indices of the preloaded functions: the only
membership queries `cgStep` makes of its argument. -/
def preloadIndexSet (g : PreloadsCallGraph) : Finset Nat :=
  (Finset.range g.bodies.length).image (g.import_fn_count + ·)

theorem cgStep_biUnion_congr (g : PreloadsCallGraph) {s t : Finset Nat}
    (h : s ∩ preloadIndexSet g = t ∩ preloadIndexSet g) :
    ((Finset.range g.bodies.length).biUnion fun i =>
      if g.import_fn_count + i ∈ s then (g.bodies.getD i []).toFinset else ∅) =
    ((Finset.range g.bodies.length).biUnion fun i =>
      if g.import_fn_count + i ∈ t then (g.bodies.getD i []).toFinset else ∅) := by
  refine Finset.biUnion_congr rfl ?_
  intro i hi
  have hmem : g.import_fn_count + i ∈ preloadIndexSet g :=
    Finset.mem_image.mpr ⟨i, hi, rfl⟩
  have hiff : (g.import_fn_count + i ∈ s) ↔ (g.import_fn_count + i ∈ t) := by
    constructor
    · intro hs
      have : g.import_fn_count + i ∈ t ∩ preloadIndexSet g := by
        rw [← h]; exact Finset.mem_inter.mpr ⟨hs, hmem⟩
      exact (Finset.mem_inter.mp this).1
    · intro ht
      have : g.import_fn_count + i ∈ s ∩ preloadIndexSet g := by
        rw [h]; exact Finset.mem_inter.mpr ⟨ht, hmem⟩
      exact (Finset.mem_inter.mp this).1
  exact if_congr hiff rfl rfl

theorem cgStep_fixed_of_stab (g : PreloadsCallGraph) {s : Finset Nat}
    (h : s ∩ preloadIndexSet g = cgStep g s ∩ preloadIndexSet g) :
    cgStep g (cgStep g s) = cgStep g s := by
  have hcongr := cgStep_biUnion_congr g h.symm
  show cgStep g s ∪ _ = cgStep g s
  rw [hcongr]
  apply Finset.union_eq_left.mpr
  exact Finset.subset_union_right

theorem exists_stab (g : PreloadsCallGraph) (roots : List Nat) :
    ∃ k ≤ g.bodies.length,
      ((cgStep g)^[k] roots.toFinset) ∩ preloadIndexSet g =
      ((cgStep g)^[k + 1] roots.toFinset) ∩ preloadIndexSet g := by
  by_contra hcon
  push_neg at hcon
  have hchain : ∀ m : Nat, (cgStep g)^[m] roots.toFinset ⊆ (cgStep g)^[m + 1] roots.toFinset := by
    intro m
    rw [Function.iterate_succ_apply']
    exact cgStep_extensive g _
  have hgrow : ∀ m, m ≤ g.bodies.length + 1 →
      m ≤ (((cgStep g)^[m] roots.toFinset) ∩ preloadIndexSet g).card := by
    intro m
    induction m with
    | zero => intro _; exact Nat.zero_le _
    | succ m ih =>
      intro hm
      have hne := hcon m (by omega)
      have hsub : ((cgStep g)^[m] roots.toFinset) ∩ preloadIndexSet g ⊆
          ((cgStep g)^[m + 1] roots.toFinset) ∩ preloadIndexSet g :=
        Finset.inter_subset_inter (hchain m) (Finset.Subset.refl _)
      have hss : ((cgStep g)^[m] roots.toFinset) ∩ preloadIndexSet g ⊂
          ((cgStep g)^[m + 1] roots.toFinset) ∩ preloadIndexSet g :=
        Finset.ssubset_iff_subset_ne.mpr ⟨hsub, hne⟩
      have := Finset.card_lt_card hss
      have hm' := ih (by omega)
      omega
  have hfinal := hgrow (g.bodies.length + 1) (le_refl _)
  have hcardP : (preloadIndexSet g).card = g.bodies.length := by
    unfold preloadIndexSet
    rw [Finset.card_image_of_injective _ (add_right_injective g.import_fn_count),
      Finset.card_range]
  have hle : (((cgStep g)^[g.bodies.length + 1] roots.toFinset) ∩ preloadIndexSet g).card ≤
      (preloadIndexSet g).card :=
    Finset.card_le_card Finset.inter_subset_right
  omega

theorem trace_call_graph_fixed (g : PreloadsCallGraph) (roots : List Nat) :
    cgStep g (trace_call_graph g roots) = trace_call_graph g roots := by
  obtain ⟨k, hk, hstab⟩ := exists_stab g roots
  have hstab' : ((cgStep g)^[k] roots.toFinset) ∩ preloadIndexSet g =
      cgStep g ((cgStep g)^[k] roots.toFinset) ∩ preloadIndexSet g := by
    rw [Function.iterate_succ_apply'] at hstab
    exact hstab
  have hfix : cgStep g (cgStep g ((cgStep g)^[k] roots.toFinset)) =
      cgStep g ((cgStep g)^[k] roots.toFinset) := cgStep_fixed_of_stab g hstab'
  have hfix' : cgStep g ((cgStep g)^[k + 1] roots.toFinset) =
      (cgStep g)^[k + 1] roots.toFinset := by
    rw [Function.iterate_succ_apply']
    exact hfix
  have htrace : trace_call_graph g roots = (cgStep g)^[k + 1] roots.toFinset := by
    unfold trace_call_graph
    have hsplit : g.bodies.length + 1 = (g.bodies.length - k) + (k + 1) := by omega
    rw [hsplit, Function.iterate_add_apply]
    exact Function.iterate_fixed hfix' (g.bodies.length - k)
  rw [htrace]
  exact hfix'

theorem mem_trace_iff_reach (g : PreloadsCallGraph) (roots : List Nat) (x : Nat) :
    x ∈ trace_call_graph g roots ↔ Reach g roots x := by
  constructor
  · exact mem_iterate_reach g roots (g.bodies.length + 1) x
  · intro hr
    induction hr with
    | root r hr => exact (iterate_cgStep_subset g _ _) (List.mem_toFinset.mpr hr)
    | step u v hu hle hlt hv ihu =>
      rw [← trace_call_graph_fixed g roots]
      apply Finset.mem_union_right
      apply Finset.mem_biUnion.mpr
      refine ⟨u - g.import_fn_count, Finset.mem_range.mpr hlt, ?_⟩
      rw [if_pos (by rwa [Nat.add_sub_cancel' hle])]
      exact List.mem_toFinset.mpr hv

theorem mem_live_iff (g : PreloadsCallGraph) (roots : List Nat) (i : Nat) :
    i ∈ live_preload_indices g roots ↔
      i < g.bodies.length ∧ Reach g roots (g.import_fn_count + i) := by
  unfold live_preload_indices
  rw [List.mem_filter, List.mem_range]
  rw [decide_eq_true_eq, mem_trace_iff_reach]

theorem remap_some_of_reach (g : PreloadsCallGraph) (roots : List Nat) (r : Nat)
    (hlt : r < g.import_fn_count + g.bodies.length) (hr : Reach g roots r) :
    fn_index_remap g roots r ≠ none := by
  unfold fn_index_remap
  by_cases himp : r < g.import_fn_count
  · rw [if_pos himp]
    simp
  · rw [if_neg himp]
    have hmem : (r - g.import_fn_count) ∈ live_preload_indices g roots := by
      rw [mem_live_iff]
      constructor
      · omega
      · rwa [Nat.add_sub_cancel' (by omega : g.import_fn_count ≤ r)]
    cases hlp : listPos (live_preload_indices g roots) (r - g.import_fn_count) with
    | none => exact absurd hlp (listPos_ne_none hmem)
    | some rank => simp

/-- C1: dead-code elimination is sound and complete for any call graph
whose call targets and roots are in range: every function reachable
from the root set (exports ∪ indirect-call targets ∪
called-by-new-code) survives trimming with its body; every unreachable
function is removed; and after remapping, no root reference and no
call site inside surviving code maps to a removed index. -/
theorem C1_dead_code_elimination (g : PreloadsCallGraph) (roots : List Nat)
    (hwf : ∀ b ∈ g.bodies, ∀ t ∈ b, t < g.import_fn_count + g.bodies.length)
    (hroots : ∀ r ∈ roots, r < g.import_fn_count + g.bodies.length) :
    (∀ i, i < g.bodies.length → Reach g roots (g.import_fn_count + i) →
      i ∈ live_preload_indices g roots ∧
      (g.bodies.getD i []).map (fn_index_remap g roots) ∈
        copy_preloads_shrinking_dead_fns g roots) ∧
    (∀ i, i < g.bodies.length → ¬ Reach g roots (g.import_fn_count + i) →
      i ∉ live_preload_indices g roots) ∧
    (∀ r ∈ roots, fn_index_remap g roots r ≠ none) ∧
    (∀ body ∈ copy_preloads_shrinking_dead_fns g roots, ∀ t ∈ body, t ≠ none) := by
  refine ⟨?_, ?_, ?_, ?_⟩
  · intro i hi hreach
    have hmem : i ∈ live_preload_indices g roots := (mem_live_iff g roots i).mpr ⟨hi, hreach⟩
    exact ⟨hmem, List.mem_map.mpr ⟨i, hmem, rfl⟩⟩
  · intro i hi hnreach hmem
    exact hnreach ((mem_live_iff g roots i).mp hmem).2
  · intro r hr
    exact remap_some_of_reach g roots r (hroots r hr) (Reach.root r hr)
  · intro body hbody t ht
    obtain ⟨i, hlive, rfl⟩ := List.mem_map.mp hbody
    obtain ⟨t0, ht0, rfl⟩ := List.mem_map.mp ht
    obtain ⟨hi, hreach⟩ := (mem_live_iff g roots i).mp hlive
    have hbody_mem : g.bodies.getD i [] ∈ g.bodies := by
      rw [List.getD_eq_getElem?_getD, List.getElem?_eq_getElem hi]
      exact List.getElem_mem hi
    have ht0lt : t0 < g.import_fn_count + g.bodies.length := hwf _ hbody_mem t0 ht0
    have hreach_t0 : Reach g roots t0 := by
      refine Reach.step (g.import_fn_count + i) t0 hreach (Nat.le_add_right _ _) ?_ ?_
      · rwa [Nat.add_sub_cancel_left]
      · rwa [Nat.add_sub_cancel_left]
    exact remap_some_of_reach g roots t0 ht0lt hreach_t0

set_option maxHeartbeats 2000000 in
/-- C1 witness: the spec's §8 example scenario with two imports:
preloaded functions A,B,C,D at whole-module indices 2..5, A calls B, C
is unreachable, D sits in the element table; roots {A, D}.  A and B
survive, C is removed, and D's remapped root reference is defined. -/
theorem C1_witness :
    0 ∈ live_preload_indices ⟨2, [[3], [], [], []]⟩ [2, 5] ∧
    1 ∈ live_preload_indices ⟨2, [[3], [], [], []]⟩ [2, 5] ∧
    2 ∉ live_preload_indices ⟨2, [[3], [], [], []]⟩ [2, 5] ∧
    fn_index_remap ⟨2, [[3], [], [], []]⟩ [2, 5] 5 ≠ none := by
  have hwf : ∀ b ∈ ([[3], [], [], []] : List (List Nat)), ∀ t ∈ b, t < 2 + 4 := by decide
  have hroots : ∀ r ∈ ([2, 5] : List Nat), r < 2 + 4 := by decide
  have hthm := C1_dead_code_elimination ⟨2, [[3], [], [], []]⟩ [2, 5] hwf hroots
  refine ⟨?_, ?_, ?_, ?_⟩
  · exact (hthm.1 0 (by decide) (Reach.root 2 (by decide))).1
  · exact (hthm.1 1 (by decide)
      (Reach.step 2 3 (Reach.root 2 (by decide)) (by decide) (by decide) (by decide))).1
  · have h4 : (4 : Nat) ∉ trace_call_graph ⟨2, [[3], [], [], []]⟩ [2, 5] := by decide
    refine hthm.2.1 2 (by decide) ?_
    intro hreach
    exact h4 ((mem_trace_iff_reach ⟨2, [[3], [], [], []]⟩ [2, 5] 4).mpr hreach)
  · exact hthm.2.2.1 5 (by decide)

/-! ### LEB128 lemmas (for C3/C4) -/

theorem lebEncodeAux_congr : ∀ (f f' n : Nat), n < f → n < f' →
    lebEncodeAux f n = lebEncodeAux f' n := by
  intro f
  induction f with
  | zero => intro f' n h; omega
  | succ f ih =>
    intro f' n hf hf'
    cases f' with
    | zero => omega
    | succ f' =>
      simp only [lebEncodeAux]
      by_cases h : n < 128
      · rw [if_pos h, if_pos h]
      · rw [if_neg h, if_neg h]
        have hd : n / 128 < n := Nat.div_lt_self (by omega) (by omega)
        rw [ih f' (n / 128) (by omega) (by omega)]

theorem lebEncode_eq_ite (n : Nat) :
    lebEncode n = if n < 128 then [n] else (n % 128 + 128) :: lebEncode (n / 128) := by
  have hstep : lebEncode n = if n < 128 then [n] else (n % 128 + 128) :: lebEncodeAux n (n / 128) :=
    rfl
  rw [hstep]
  by_cases h : n < 128
  · rw [if_pos h, if_pos h]
  · rw [if_neg h, if_neg h]
    have hd : n / 128 < n := Nat.div_lt_self (by omega) (by omega)
    have : lebEncodeAux n (n / 128) = lebEncodeAux (n / 128 + 1) (n / 128) :=
      lebEncodeAux_congr n (n / 128 + 1) (n / 128) (by omega) (by omega)
    rw [this]
    rfl

theorem lebEncode_ne_nil (n : Nat) : lebEncode n ≠ [] := by
  rw [lebEncode_eq_ite]
  by_cases h : n < 128
  · rw [if_pos h]; simp
  · rw [if_neg h]; simp

theorem lebEncode_length_le : ∀ (k n : Nat), n < 128 ^ (k + 1) → (lebEncode n).length ≤ k + 1 := by
  intro k
  induction k with
  | zero =>
    intro n h
    rw [lebEncode_eq_ite, if_pos (by simpa using h)]
    simp
  | succ k ih =>
    intro n h
    rw [lebEncode_eq_ite]
    by_cases hn : n < 128
    · rw [if_pos hn]; simp
    · rw [if_neg hn]
      simp only [List.length_cons]
      have hdiv : n / 128 < 128 ^ (k + 1) := by
        rw [Nat.div_lt_iff_lt_mul (by omega : 0 < 128)]
        calc n < 128 ^ (k + 1 + 1) := h
          _ = 128 ^ (k + 1) * 128 := by ring
      have := ih (n / 128) hdiv
      omega

theorem lebDecode_encode : ∀ (n fuel : Nat) (rest : List Nat),
    (lebEncode n).length ≤ fuel →
    lebDecodeList fuel (lebEncode n ++ rest) = some (n, (lebEncode n).length) := by
  intro n
  induction n using Nat.strong_induction_on with
  | _ n ih =>
    intro fuel rest hfuel
    rw [lebEncode_eq_ite] at hfuel ⊢
    by_cases hn : n < 128
    · rw [if_pos hn] at hfuel ⊢
      simp only [List.length_singleton] at hfuel
      obtain ⟨f, rfl⟩ : ∃ f, fuel = f + 1 := ⟨fuel - 1, by omega⟩
      simp only [List.singleton_append, lebDecodeList, if_pos hn, List.length_singleton]
    · rw [if_neg hn] at hfuel ⊢
      simp only [List.length_cons] at hfuel
      obtain ⟨f, rfl⟩ : ∃ f, fuel = f + 1 := ⟨fuel - 1, by omega⟩
      have hdlt : n / 128 < n := Nat.div_lt_self (by omega) (by omega)
      have hrec := ih (n / 128) hdlt f rest (by omega)
      simp only [List.cons_append, lebDecodeList, if_neg (by omega : ¬ n % 128 + 128 < 128),
        List.append_eq, hrec, List.length_cons]
      have h1 : (n % 128 + 128) % 128 = n % 128 := by omega
      have h2 : n % 128 + n / 128 * 128 = n := by omega
      rw [h1, h2]

theorem leb_inj_append : ∀ (m n : Nat) (xs ys : List Nat),
    lebEncode m ++ xs = lebEncode n ++ ys → m = n ∧ xs = ys := by
  intro m
  induction m using Nat.strong_induction_on with
  | _ m ih =>
    intro n xs ys h
    rw [lebEncode_eq_ite m, lebEncode_eq_ite n] at h
    by_cases hm : m < 128 <;> by_cases hn : n < 128
    · rw [if_pos hm, if_pos hn] at h
      simp only [List.singleton_append, List.cons.injEq] at h
      exact ⟨h.1, h.2⟩
    · rw [if_pos hm, if_neg hn] at h
      simp only [List.singleton_append, List.cons_append, List.cons.injEq] at h
      omega
    · rw [if_neg hm, if_pos hn] at h
      simp only [List.singleton_append, List.cons_append, List.cons.injEq] at h
      omega
    · rw [if_neg hm, if_neg hn] at h
      simp only [List.cons_append, List.cons.injEq] at h
      obtain ⟨h1, h2⟩ := h
      have hdlt : m / 128 < m := Nat.div_lt_self (by omega) (by omega)
      obtain ⟨hq, hxs⟩ := ih (m / 128) hdlt (n / 128) xs ys h2
      refine ⟨?_, hxs⟩
      omega

theorem lebDecodePadded_decode (n : Nat) (hn : n < 2 ^ 32) (rest : List Nat) :
    lebDecodeList 5 (lebEncodePadded n ++ rest) = some (n, 5) := by
  have c1 : ¬ (n % 128 + 128 < 128) := by omega
  have c2 : ¬ (n / 128 % 128 + 128 < 128) := by omega
  have c3 : ¬ (n / 128 ^ 2 % 128 + 128 < 128) := by omega
  have c4 : ¬ (n / 128 ^ 3 % 128 + 128 < 128) := by omega
  have c5 : n / 128 ^ 4 % 128 < 128 := by omega
  have m1 : (n % 128 + 128) % 128 = n % 128 := by omega
  have m2 : (n / 128 % 128 + 128) % 128 = n / 128 % 128 := by omega
  have m3 : (n / 128 ^ 2 % 128 + 128) % 128 = n / 128 ^ 2 % 128 := by omega
  have m4 : (n / 128 ^ 3 % 128 + 128) % 128 = n / 128 ^ 3 % 128 := by omega
  simp only [lebEncodePadded, List.cons_append, List.nil_append, lebDecodeList,
    if_neg c1, if_neg c2, if_neg c3, if_neg c4, if_pos c5, m1, m2, m3, m4]
  have hval : n % 128 + (n / 128 % 128 +
      (n / 128 ^ 2 % 128 + (n / 128 ^ 3 % 128 + n / 128 ^ 4 % 128 * 128) * 128) * 128) * 128
      = n := by
    have e2 : (128 : Nat) ^ 2 = 16384 := by norm_num
    have e3 : (128 : Nat) ^ 3 = 2097152 := by norm_num
    have e4 : (128 : Nat) ^ 4 = 268435456 := by norm_num
    have e32 : (2 : Nat) ^ 32 = 4294967296 := by norm_num
    rw [e2, e3, e4]
    rw [e32] at hn
    omega
  rw [hval]

theorem u32parse_encode (pre : List Nat) (n : Nat) (rest : List Nat)
    (h : (lebEncode n).length ≤ 5) :
    u32parse (pre ++ (lebEncode n ++ rest)) pre.length =
      PRes.ok n (pre.length + (lebEncode n).length) := by
  unfold u32parse
  rw [List.drop_left, lebDecode_encode n 5 rest h]

theorem u32parse_padded (pre : List Nat) (n : Nat) (rest : List Nat) (hn : n < 2 ^ 32) :
    u32parse (pre ++ (lebEncodePadded n ++ rest)) pre.length = PRes.ok n (pre.length + 5) := by
  unfold u32parse
  rw [List.drop_left, lebDecodePadded_decode n hn rest]

theorem valueTypeByte_inj : Function.Injective valueTypeByte := by
  intro a b hab
  cases a <;> cases b <;> first | rfl | (simp [valueTypeByte] at hab)

theorem sig_append_inj : ∀ (s t : Signature) (xs ys : List Nat),
    s.serialize ++ xs = t.serialize ++ ys → s = t ∧ xs = ys := by
  intro ⟨p1, r1⟩ ⟨p2, r2⟩ xs ys h
  simp only [Signature.serialize, List.cons_append, List.cons.injEq, List.append_assoc] at h
  obtain ⟨-, h2⟩ := h
  obtain ⟨hlen, h3⟩ := leb_inj_append _ _ _ _ h2
  obtain ⟨hmap, h4⟩ := List.append_inj h3 (by simp [hlen])
  have hp : p1 = p2 := List.map_injective_iff.mpr valueTypeByte_inj hmap
  subst hp
  cases r1 with
  | none =>
    cases r2 with
    | none =>
      simp only [retSerialize, List.cons_append, List.nil_append, List.cons.injEq,
        true_and] at h4
      exact ⟨rfl, h4⟩
    | some b => simp [retSerialize] at h4
  | some a =>
    cases r2 with
    | none => simp [retSerialize] at h4
    | some b =>
      simp only [retSerialize, List.cons_append, List.cons.injEq, true_and] at h4
      obtain ⟨hab, hxs⟩ := h4
      have hr : a = b := valueTypeByte_inj hab
      subst hr
      exact ⟨rfl, hxs⟩

theorem sigsBytes_cons (s : Signature) (l : List Signature) :
    sigsBytes (s :: l) = s.serialize ++ sigsBytes l := by
  simp [sigsBytes]

theorem sigsBytes_concat (l : List Signature) (s : Signature) :
    sigsBytes (l ++ [s]) = sigsBytes l ++ s.serialize := by
  simp [sigsBytes]

theorem offsetsFrom_length : ∀ (l : List Signature) (b : Nat),
    (offsetsFrom b l).length = l.length := by
  intro l
  induction l with
  | nil => intro b; rfl
  | cons s rest ih => intro b; simp [offsetsFrom, ih]

theorem offsetsFrom_concat : ∀ (l : List Signature) (s : Signature) (b : Nat),
    offsetsFrom b (l ++ [s]) = offsetsFrom b l ++ [b + (sigsBytes l).length] := by
  intro l s
  induction l with
  | nil => intro b; simp [offsetsFrom, sigsBytes]
  | cons s0 rest ih =>
    intro b
    simp only [List.cons_append, offsetsFrom, List.append_eq, ih, sigsBytes_cons,
      List.length_append, Nat.add_assoc]

theorem sig_serialize_ne_nil (s : Signature) : s.serialize ≠ [] := by
  simp [Signature.serialize]

theorem sigsBytes_ne_nil {l : List Signature} (h : l ≠ []) : sigsBytes l ≠ [] := by
  cases l with
  | nil => exact absurd rfl h
  | cons s rest =>
    rw [sigsBytes_cons]
    intro hcontra
    rcases List.append_eq_nil.mp hcontra with ⟨h1, -⟩
    exact sig_serialize_ne_nil s h1

theorem mem_sig_length_le {s : Signature} : ∀ {l : List Signature}, s ∈ l →
    s.serialize.length ≤ (sigsBytes l).length := by
  intro l
  induction l with
  | nil => intro h; simp at h
  | cons x rest ih =>
    intro h
    rw [sigsBytes_cons, List.length_append]
    rcases List.mem_cons.mp h with h1 | h2
    · rw [h1]; omega
    · have := ih h2; omega

theorem param_length_le_serialize (s : Signature) :
    s.param_types.length ≤ s.serialize.length := by
  simp only [Signature.serialize, List.length_cons, List.length_append, List.length_map]
  omega

theorem listPos_some_lt {α : Type} [DecidableEq α] :
    ∀ {l : List α} {a : α} {i : Nat}, listPos l a = some i → i < l.length := by
  intro l
  induction l with
  | nil => intro a i h; exact absurd h (by simp [listPos])
  | cons x rest ih =>
    intro a i h
    simp only [listPos] at h
    by_cases hxa : x = a
    · rw [if_pos hxa] at h
      simp only [Option.some.injEq] at h
      simp [← h]
    · rw [if_neg hxa] at h
      cases hp : listPos rest a with
      | none => rw [hp] at h; simp at h
      | some j =>
        rw [hp] at h
        simp only [Option.map_some', Option.some.injEq] at h
        have := ih hp
        simp [← h]
        omega

theorem listPos_some_get {α : Type} [DecidableEq α] :
    ∀ {l : List α} {a : α} {i : Nat}, listPos l a = some i → l[i]? = some a := by
  intro l
  induction l with
  | nil => intro a i h; exact absurd h (by simp [listPos])
  | cons x rest ih =>
    intro a i h
    simp only [listPos] at h
    by_cases hxa : x = a
    · rw [if_pos hxa] at h
      simp only [Option.some.injEq] at h
      rw [← h]
      simp [hxa]
    · rw [if_neg hxa] at h
      cases hp : listPos rest a with
      | none => rw [hp] at h; simp at h
      | some j =>
        rw [hp] at h
        simp only [Option.map_some', Option.some.injEq] at h
        rw [← h]
        simpa using ih hp

theorem insert_scan_ofSigs : ∀ (l : List Signature) (pre : List Nat) (s : Signature) (c : Nat),
    insert_scan (pre ++ sigsBytes l) s.serialize (offsetsFrom pre.length l) c =
      (listPos l s).map (· + c) := by
  intro l
  induction l with
  | nil =>
    intro pre s c
    simp [insert_scan, listPos, sigsBytes, offsetsFrom]
  | cons s0 rest ih =>
    intro pre s c
    rw [sigsBytes_cons]
    have hlen_bytes : (pre ++ (s0.serialize ++ sigsBytes rest)).length
        = pre.length + (s0.serialize.length + (sigsBytes rest).length) := by simp
    simp only [offsetsFrom, insert_scan]
    by_cases hbreak :
        (pre ++ (s0.serialize ++ sigsBytes rest)).length < pre.length + s.serialize.length
    · rw [if_pos hbreak]
      have hnm : s ∉ s0 :: rest := by
        intro hmem
        have hle := mem_sig_length_le hmem
        rw [sigsBytes_cons, List.length_append] at hle
        omega
      rw [listPos_eq_none hnm]
      rfl
    · rw [if_neg hbreak]
      rw [List.drop_left]
      by_cases hs0 : s0 = s
      · subst hs0
        rw [List.take_left, if_pos rfl]
        simp [listPos]
      · have hwin : (s0.serialize ++ sigsBytes rest).take s.serialize.length ≠ s.serialize := by
          intro heq
          have hsplit : s0.serialize ++ sigsBytes rest
              = s.serialize ++ (s0.serialize ++ sigsBytes rest).drop s.serialize.length := by
            conv_lhs =>
              rw [← List.take_append_drop s.serialize.length (s0.serialize ++ sigsBytes rest)]
            rw [heq]
          exact hs0 (sig_append_inj s0 s _ _ hsplit).1
        rw [if_neg hwin]
        have hpre' : pre.length + s0.serialize.length = (pre ++ s0.serialize).length := by simp
        have hass : pre ++ (s0.serialize ++ sigsBytes rest)
            = (pre ++ s0.serialize) ++ sigsBytes rest := by simp [List.append_assoc]
        rw [hpre', hass, ih (pre ++ s0.serialize) s (c + 1)]
        simp only [listPos, if_neg hs0]
        cases listPos rest s with
        | none => rfl
        | some j =>
          simp only [Option.map_some', Option.some.injEq]
          omega

theorem insert_ofSigs (l : List Signature) (s : Signature) :
    (TypeSection.ofSigs l).insert s =
      match listPos l s with
      | some i => (i, TypeSection.ofSigs l)
      | none => (l.length, TypeSection.ofSigs (l ++ [s])) := by
  have hscan := insert_scan_ofSigs l [] s 0
  simp only [List.nil_append, List.length_nil] at hscan
  unfold TypeSection.insert
  simp only [TypeSection.ofSigs]
  rw [hscan]
  cases hp : listPos l s with
  | some i => simp
  | none =>
    simp only [Option.map_none']
    rw [offsetsFrom_length, sigsBytes_concat, offsetsFrom_concat]
    simp

/-! ### C3 — type signature deduplication -/

/-- C3: on any type section built from a list of stored signatures
(the states reachable by `insert` from a fresh section), inserting the
same signature twice returns the same index both times, and inserting
a signature that differs only in return type or only in parameter
order returns an index distinct from the first. -/
theorem C3_insert_dedup (l : List Signature) (s s' : Signature)
    (hdiff : (s'.param_types = s.param_types ∧ s'.ret_type ≠ s.ret_type) ∨
      (s'.param_types ≠ s.param_types ∧ s'.param_types.Perm s.param_types ∧
        s'.ret_type = s.ret_type)) :
    ((((TypeSection.ofSigs l).insert s).2).insert s).1 = ((TypeSection.ofSigs l).insert s).1 ∧
    ((((TypeSection.ofSigs l).insert s).2).insert s').1 ≠ ((TypeSection.ofSigs l).insert s).1 := by
  have hne : s' ≠ s := by
    rcases hdiff with ⟨hp, hr⟩ | ⟨hp, -, -⟩
    · intro he; exact hr (by rw [he])
    · intro he; exact hp (by rw [he])
  rw [insert_ofSigs l s]
  cases hp : listPos l s with
  | some i =>
    simp only
    constructor
    · rw [insert_ofSigs l s, hp]
    · rw [insert_ofSigs l s']
      cases hp' : listPos l s' with
      | some j =>
        simp only
        intro hji
        have hg1 := listPos_some_get hp
        have hg2 := listPos_some_get hp'
        rw [hji, hg1] at hg2
        exact hne (Option.some.inj hg2).symm
      | none =>
        simp only
        have := listPos_some_lt hp
        omega
  | none =>
    simp only
    have hsm : s ∉ l := fun hmem => listPos_ne_none hmem hp
    constructor
    · rw [insert_ofSigs (l ++ [s]) s, listPos_concat_self hsm]
    · rw [insert_ofSigs (l ++ [s]) s']
      cases hp' : listPos (l ++ [s]) s' with
      | some j =>
        simp only
        intro hj
        have hg := listPos_some_get hp'
        rw [hj, List.getElem?_concat_length] at hg
        exact hne (Option.some.inj hg.symm)
      | none =>
        simp only
        simp

/-- C3 witness: inserting `(I32) -> I32` into an empty section twice
yields index 0 both times, while the signature with the same
parameters but no return type gets a distinct index. -/
theorem C3_witness :
    ((((TypeSection.ofSigs []).insert ⟨[ValueType.i32], some ValueType.i32⟩).2).insert
        ⟨[ValueType.i32], some ValueType.i32⟩).1 =
      ((TypeSection.ofSigs []).insert ⟨[ValueType.i32], some ValueType.i32⟩).1 ∧
    ((((TypeSection.ofSigs []).insert ⟨[ValueType.i32], some ValueType.i32⟩).2).insert
        ⟨[ValueType.i32], none⟩).1 ≠
      ((TypeSection.ofSigs []).insert ⟨[ValueType.i32], some ValueType.i32⟩).1 ∧
    ((TypeSection.ofSigs []).insert ⟨[ValueType.i32], some ValueType.i32⟩).1 = 0 := by
  have h := C3_insert_dedup [] ⟨[ValueType.i32], some ValueType.i32⟩ ⟨[ValueType.i32], none⟩
    (Or.inl ⟨rfl, by decide⟩)
  exact ⟨h.1, h.2, by decide⟩

/-! ### C4 — type section round-trip -/

theorem retSerialize_shape (r : Option ValueType) :
    ∃ (rh : Nat) (rt : List Nat), retSerialize r = rh :: rt ∧ rt.length = rh := by
  cases r with
  | none => exact ⟨0, [], rfl, rfl⟩
  | some t => exact ⟨1, [valueTypeByte t], rfl, rfl⟩

theorem ts_walk_sigs : ∀ (m : List Signature) (pre : List Nat) (oc fuel : Nat),
    m.length < fuel →
    (∀ s ∈ m, s.param_types.length < 2 ^ 35) →
    ts_walk oc (pre ++ sigsBytes m) pre.length fuel =
      PRes.ok (offsetsFrom pre.length m) (pre ++ sigsBytes m).length := by
  intro m
  induction m with
  | nil =>
    intro pre oc fuel hfuel hparams
    obtain ⟨f, rfl⟩ : ∃ f, fuel = f + 1 := ⟨fuel - 1, by omega⟩
    show ts_walk oc (pre ++ sigsBytes []) pre.length (f + 1) = _
    have hnil : sigsBytes [] = [] := rfl
    rw [hnil, List.append_nil]
    simp only [ts_walk, offsetsFrom]
    rw [if_pos (le_refl pre.length)]
  | cons s m' ih =>
    intro pre oc fuel hfuel hparams
    obtain ⟨f, rfl⟩ : ∃ f, fuel = f + 1 := ⟨fuel - 1, by omega⟩
    obtain ⟨rh, rt, hRval, hrtlen⟩ := retSerialize_shape s.ret_type
    have henc : s.serialize = 0x60 :: (lebEncode s.param_types.length ++
        (s.param_types.map valueTypeByte ++ retSerialize s.ret_type)) := by
      simp [Signature.serialize]
    have hbytes : pre ++ sigsBytes (s :: m')
        = pre ++ 0x60 :: (lebEncode s.param_types.length ++
          (s.param_types.map valueTypeByte ++ (retSerialize s.ret_type ++ sigsBytes m'))) := by
      rw [sigsBytes_cons, henc]
      simp [List.append_assoc]
    have hAlen : (lebEncode s.param_types.length).length ≤ 5 := by
      apply lebEncode_length_le 4
      have h1 := hparams s (List.mem_cons_self s m')
      have h2 : (128 : Nat) ^ (4 + 1) = 2 ^ 35 := by norm_num
      omega
    rw [hbytes]
    have hlen1 : ¬ ((pre ++ 0x60 :: (lebEncode s.param_types.length ++
        (s.param_types.map valueTypeByte ++
          (retSerialize s.ret_type ++ sigsBytes m')))).length ≤ pre.length) := by
      simp
    have hsep : (pre ++ 0x60 :: (lebEncode s.param_types.length ++
        (s.param_types.map valueTypeByte ++
          (retSerialize s.ret_type ++ sigsBytes m')))).getD pre.length 0 = 0x60 := by
      rw [List.getD_eq_getElem?_getD, List.getElem?_append_right (le_refl pre.length)]
      simp
    have hsplit1 : pre ++ 0x60 :: (lebEncode s.param_types.length ++
        (s.param_types.map valueTypeByte ++ (retSerialize s.ret_type ++ sigsBytes m')))
        = (pre ++ [0x60]) ++ (lebEncode s.param_types.length ++
          (s.param_types.map valueTypeByte ++ (retSerialize s.ret_type ++ sigsBytes m'))) := by
      simp
    have hu : u32parse (pre ++ 0x60 :: (lebEncode s.param_types.length ++
        (s.param_types.map valueTypeByte ++ (retSerialize s.ret_type ++ sigsBytes m'))))
        (pre.length + 1)
        = PRes.ok s.param_types.length
            (pre.length + 1 + (lebEncode s.param_types.length).length) := by
      rw [hsplit1]
      have h := u32parse_encode (pre ++ [0x60]) s.param_types.length
        (s.param_types.map valueTypeByte ++ (retSerialize s.ret_type ++ sigsBytes m')) hAlen
      simpa using h
    have hsplit2 : pre ++ 0x60 :: (lebEncode s.param_types.length ++
        (s.param_types.map valueTypeByte ++ (retSerialize s.ret_type ++ sigsBytes m')))
        = (pre ++ 0x60 :: (lebEncode s.param_types.length ++ s.param_types.map valueTypeByte))
          ++ (retSerialize s.ret_type ++ sigsBytes m') := by
      simp [List.append_assoc]
    have hplen2 : (pre ++ 0x60 :: (lebEncode s.param_types.length ++
        s.param_types.map valueTypeByte)).length
        = pre.length + 1 + (lebEncode s.param_types.length).length + s.param_types.length := by
      simp
      omega
    have hret : (pre ++ 0x60 :: (lebEncode s.param_types.length ++
        (s.param_types.map valueTypeByte ++ (retSerialize s.ret_type ++ sigsBytes m'))))[
        pre.length + 1 + (lebEncode s.param_types.length).length + s.param_types.length]?
        = some rh := by
      rw [hsplit2, List.getElem?_append_right (by rw [hplen2])]
      rw [hplen2, Nat.sub_self, hRval]
      simp
    simp only [ts_walk]
    rw [if_neg hlen1, hsep]
    rw [if_neg (by simp : ¬ ((0x60 : Nat) ≠ 0x60))]
    simp only [hu, hret]
    have hpre' : pre.length + 1 + (lebEncode s.param_types.length).length +
        s.param_types.length + 1 + rh
        = (pre ++ s.serialize).length := by
      rw [henc]
      simp [hRval]
      omega
    have hass3 : pre ++ 0x60 :: (lebEncode s.param_types.length ++
        (s.param_types.map valueTypeByte ++ (retSerialize s.ret_type ++ sigsBytes m')))
        = (pre ++ s.serialize) ++ sigsBytes m' := by
      rw [henc]
      simp [List.append_assoc]
    have hih := ih (pre ++ s.serialize) oc f (by simp at hfuel; omega)
      (fun t ht => hparams t (List.mem_cons_of_mem _ ht))
    have hoffs : offsetsFrom pre.length (s :: m')
        = pre.length :: offsetsFrom (pre ++ s.serialize).length m' := by
      simp only [offsetsFrom]
      congr 1
      simp
    rw [hpre', hass3, hih, hoffs]

theorem length_le_sigsBytes : ∀ m : List Signature, m.length ≤ (sigsBytes m).length := by
  intro m
  induction m with
  | nil => simp [sigsBytes]
  | cons s rest ih =>
    rw [sigsBytes_cons, List.length_append, List.length_cons]
    have h1 : 1 ≤ s.serialize.length := by
      cases hs : s.serialize with
      | nil => exact absurd hs (sig_serialize_ne_nil s)
      | cons a t => simp
    omega

theorem insert_snd_ofSigs (m : List Signature) (s : Signature) :
    ∃ m2 : List Signature, ((TypeSection.ofSigs m).insert s).2 = TypeSection.ofSigs m2 ∧
      m2 ≠ [] := by
  rw [insert_ofSigs]
  cases hp : listPos m s with
  | some i =>
    refine ⟨m, rfl, ?_⟩
    have hg := listPos_some_get hp
    have hmem : s ∈ m := by
      have hlt := listPos_some_lt hp
      have := List.getElem?_eq_getElem hlt
      rw [this] at hg
      rw [← Option.some.inj hg]
      exact List.getElem_mem hlt
    exact List.ne_nil_of_mem hmem
  | none => exact ⟨m ++ [s], rfl, by simp⟩

theorem insertAll_ofSigs : ∀ (l m : List Signature), ∃ m' : List Signature,
    TypeSection.insertAll (TypeSection.ofSigs m) l = TypeSection.ofSigs m' ∧
    (m ≠ [] ∨ l ≠ [] → m' ≠ []) := by
  intro l
  induction l with
  | nil =>
    intro m
    refine ⟨m, rfl, fun h => ?_⟩
    rcases h with h | h
    · exact h
    · exact absurd rfl h
  | cons s rest ih =>
    intro m
    obtain ⟨m2, hm2, hm2ne⟩ := insert_snd_ofSigs m s
    obtain ⟨m', hm', hcond⟩ := ih m2
    refine ⟨m', ?_, fun _ => hcond (Or.inl hm2ne)⟩
    unfold TypeSection.insertAll at hm' ⊢
    rw [List.foldl_cons, hm2]
    exact hm'

theorem ofSigs_serialize (m : List Signature) (hm : m ≠ []) :
    (TypeSection.ofSigs m).serialize
      = 1 :: (lebEncodePadded ((lebEncode m.length).length + (sigsBytes m).length)
          ++ (lebEncode m.length ++ sigsBytes m)) := by
  have hbne := sigsBytes_ne_nil hm
  unfold TypeSection.serialize TypeSection.ofSigs
  simp only [if_neg hbne, offsetsFrom_length, List.length_append]

theorem parse_serialize_ofSigs (m : List Signature) (hm : m ≠ [])
    (hsize : (sigsBytes m).length < 2 ^ 31) :
    TypeSection.parse (TypeSection.ofSigs m).serialize 0 =
      PRes.ok (TypeSection.ofSigs m) ((TypeSection.ofSigs m).serialize.length) := by
  have hbne := sigsBytes_ne_nil hm
  have hcount_le : m.length ≤ (sigsBytes m).length := length_le_sigsBytes m
  have e31 : (2 : Nat) ^ 31 = 2147483648 := by norm_num
  have e35 : (128 : Nat) ^ (4 + 1) = 34359738368 := by norm_num
  have e32 : (2 : Nat) ^ 32 = 4294967296 := by norm_num
  have hClen : (lebEncode m.length).length ≤ 5 := by
    apply lebEncode_length_le 4
    omega
  have hsz32 : (lebEncode m.length).length + (sigsBytes m).length < 2 ^ 32 := by omega
  have hpadlen : (lebEncodePadded ((lebEncode m.length).length + (sigsBytes m).length)).length
      = 5 := by
    simp [lebEncodePadded]
  rw [ofSigs_serialize m hm]
  have hu1 : u32parse (1 :: (lebEncodePadded
        ((lebEncode m.length).length + (sigsBytes m).length)
        ++ (lebEncode m.length ++ sigsBytes m))) 1
      = PRes.ok ((lebEncode m.length).length + (sigsBytes m).length) 6 := by
    have h := u32parse_padded [1] ((lebEncode m.length).length + (sigsBytes m).length)
      (lebEncode m.length ++ sigsBytes m) hsz32
    simpa using h
  have hsplit2 : (1 : Nat) :: (lebEncodePadded
        ((lebEncode m.length).length + (sigsBytes m).length)
        ++ (lebEncode m.length ++ sigsBytes m))
      = ([1] ++ lebEncodePadded ((lebEncode m.length).length + (sigsBytes m).length))
        ++ (lebEncode m.length ++ sigsBytes m) := by
    simp
  have hpre2len : (([1] ++ lebEncodePadded
      ((lebEncode m.length).length + (sigsBytes m).length))).length = 6 := by
    simp [hpadlen]
  have hu2 : u32parse (1 :: (lebEncodePadded
        ((lebEncode m.length).length + (sigsBytes m).length)
        ++ (lebEncode m.length ++ sigsBytes m))) 6
      = PRes.ok m.length (6 + (lebEncode m.length).length) := by
    rw [hsplit2]
    have h := u32parse_encode
      ([1] ++ lebEncodePadded ((lebEncode m.length).length + (sigsBytes m).length))
      m.length (sigsBytes m) hClen
    rw [hpre2len] at h
    exact h
  have hps : parse_section 1 (1 :: (lebEncodePadded
        ((lebEncode m.length).length + (sigsBytes m).length)
        ++ (lebEncode m.length ++ sigsBytes m))) 0
      = PRes.ok (m.length, 6 + (lebEncode m.length).length,
          6 + ((lebEncode m.length).length + (sigsBytes m).length))
          (6 + (lebEncode m.length).length) := by
    unfold parse_section
    rw [if_neg (by simp)]
    rw [if_neg (by simp)]
    simp only [Nat.zero_add, hu1, hu2]
  have hlenall : (1 :: (lebEncodePadded
        ((lebEncode m.length).length + (sigsBytes m).length)
        ++ (lebEncode m.length ++ sigsBytes m))).length
      = 6 + ((lebEncode m.length).length + (sigsBytes m).length) := by
    simp [hpadlen]
    omega
  unfold TypeSection.parse
  simp only [hps]
  rw [if_pos (by rw [hlenall]; omega)]
  have hdrop : (1 :: (lebEncodePadded
        ((lebEncode m.length).length + (sigsBytes m).length)
        ++ (lebEncode m.length ++ sigsBytes m))).drop (6 + (lebEncode m.length).length)
      = sigsBytes m := by
    have h3 : (1 : Nat) :: (lebEncodePadded
          ((lebEncode m.length).length + (sigsBytes m).length)
          ++ (lebEncode m.length ++ sigsBytes m))
        = (([1] ++ lebEncodePadded ((lebEncode m.length).length + (sigsBytes m).length))
            ++ lebEncode m.length) ++ sigsBytes m := by
      simp
    have hplen : ((([1] ++ lebEncodePadded
        ((lebEncode m.length).length + (sigsBytes m).length))
            ++ lebEncode m.length)).length = 6 + (lebEncode m.length).length := by
      simp [hpadlen]
      omega
    rw [h3, ← hplen, List.drop_left]
  have htake : 6 + ((lebEncode m.length).length + (sigsBytes m).length)
      - (6 + (lebEncode m.length).length) = (sigsBytes m).length := by omega
  rw [hdrop, htake, List.take_length]
  have hwalk := ts_walk_sigs m [] (6 + ((lebEncode m.length).length + (sigsBytes m).length))
    ((sigsBytes m).length + 1) (by omega)
    (fun s hs => by
      have h1 := param_length_le_serialize s
      have h2 := mem_sig_length_le hs
      omega)
  simp only [List.nil_append, List.length_nil] at hwalk
  rw [hwalk]
  rw [hlenall]
  rfl

/-- C4: for any nonempty sequence of `insert` calls starting from an
empty type section (with the realistic bound that the stored bytes
stay below 2^31), serializing the section and re-parsing the produced
buffer yields a type section with an identical offsets table and an
identical bytes buffer, consuming the whole buffer. -/
theorem C4_type_section_roundtrip (l : List Signature) (hl : l ≠ [])
    (hsize : (TypeSection.insertAll TypeSection.empty l).bytes.length < 2 ^ 31) :
    TypeSection.parse (TypeSection.insertAll TypeSection.empty l).serialize 0 =
      PRes.ok (TypeSection.insertAll TypeSection.empty l)
        ((TypeSection.insertAll TypeSection.empty l).serialize.length) := by
  have hempty : TypeSection.empty = TypeSection.ofSigs [] := rfl
  obtain ⟨m', hm', hcond⟩ := insertAll_ofSigs l []
  rw [hempty] at hsize ⊢
  rw [hm'] at hsize ⊢
  simp only [TypeSection.ofSigs] at hsize
  exact parse_serialize_ofSigs m' (hcond (Or.inr hl)) hsize

/-- C4 witness: the spec's example type section — `() -> ()`,
`(I32, I64, F32, F64) -> ()`, `(I32, I32, I32) -> I32` — stores three
signatures at offsets 0, 3, 10 and round-trips through serialization
and parsing unchanged. -/
theorem C4_witness :
    (TypeSection.insertAll TypeSection.empty
        [⟨[], none⟩, ⟨[ValueType.i32, ValueType.i64, ValueType.f32, ValueType.f64], none⟩,
         ⟨[ValueType.i32, ValueType.i32, ValueType.i32], some ValueType.i32⟩]).offsets
      = [0, 3, 10] ∧
    TypeSection.parse (TypeSection.insertAll TypeSection.empty
        [⟨[], none⟩, ⟨[ValueType.i32, ValueType.i64, ValueType.f32, ValueType.f64], none⟩,
         ⟨[ValueType.i32, ValueType.i32, ValueType.i32], some ValueType.i32⟩]).serialize 0 =
      PRes.ok (TypeSection.insertAll TypeSection.empty
        [⟨[], none⟩, ⟨[ValueType.i32, ValueType.i64, ValueType.f32, ValueType.f64], none⟩,
         ⟨[ValueType.i32, ValueType.i32, ValueType.i32], some ValueType.i32⟩])
        ((TypeSection.insertAll TypeSection.empty
        [⟨[], none⟩, ⟨[ValueType.i32, ValueType.i64, ValueType.f32, ValueType.f64], none⟩,
         ⟨[ValueType.i32, ValueType.i32, ValueType.i32], some ValueType.i32⟩]).serialize.length) := by
  constructor
  · decide
  · exact C4_type_section_roundtrip
      [⟨[], none⟩, ⟨[ValueType.i32, ValueType.i64, ValueType.f32, ValueType.f64], none⟩,
       ⟨[ValueType.i32, ValueType.i32, ValueType.i32], some ValueType.i32⟩]
      (by decide) (by decide)
